import Mathlib

/-!
Verification development for the diet-coke-timeline repository.

The file gives a shallow embedding of the data-shaping pipeline of the
page: the mulberry32 seeded generator and the weekly-to-daily synthesizer
and the monthly aggregator of src/app/page.tsx, the period parser and the
overlay aggregator and the boundary padder of the TrendlineOverlay
component, and the dual-axis domain aligner and event-marker placement of
src/components/Timeline.tsx.  JavaScript numbers appearing here are exact
integers or dyadic rationals, so they are modelled with Int and Rat;
NaN and Invalid Date are modelled with Option (none = NaN).  Theorems
about the embedding follow the definitions.
-/

namespace DCT

/-! ## JavaScript string primitives -/

/-- Model of String.prototype.split with a one-character separator:
splits a character list at every occurrence of the separator, keeping
empty fields, as JavaScript does. -/
def splitChars (sep : Char) : List Char → List (List Char)
  | [] => [[]]
  | c :: cs =>
    if c = sep then [] :: splitChars sep cs
    else
      match splitChars sep cs with
      | [] => [[c]]
      | t :: ts => (c :: t) :: ts

/-- Model of s.split(sep) for a one-character separator. -/
def jsSplit (s : String) (sep : Char) : List String :=
  (splitChars sep s.data).map List.asString

/-- Model of s.replace(c, empty string): removes the first occurrence of
the character c, as String.prototype.replace with a plain pattern does. -/
def removeFirstChar (sep : Char) : List Char → List Char
  | [] => []
  | c :: cs => if c = sep then cs else c :: removeFirstChar sep cs

/-- Model of s.replace(comma-string, empty string) at String level. -/
def jsRemoveFirst (sep : Char) (s : String) : String :=
  (removeFirstChar sep s.data).asString

/-- Value of a decimal digit character. -/
def digitVal (c : Char) : ℕ := c.toNat - 48

/-- Decimal value of a digit list, most significant digit first. -/
def digitsToNat (l : List Char) : ℕ :=
  l.foldl (fun acc c => 10 * acc + digitVal c) 0

/-- Model of parseInt on a string: skip leading spaces, read an optional
sign, then the longest prefix of decimal digits; none models NaN (no
digits found). -/
def jsParseInt (s : String) : Option ℤ :=
  let cs := s.data.dropWhile (fun c => c = ' ')
  let signDigits : Bool × List Char :=
    match cs with
    | '-' :: rest => (true, rest)
    | '+' :: rest => (false, rest)
    | rest => (false, rest)
  let digits := signDigits.2.takeWhile Char.isDigit
  if digits.isEmpty then none
  else if signDigits.1 then some (-(digitsToNat digits : ℤ))
  else some (digitsToNat digits : ℤ)

/-- Model of parseInt applied to an optionally absent string: indexing
past the end of the split array gives undefined, and parseInt(undefined)
is NaN. -/
def jsParseIntOpt : Option String → Option ℤ
  | none => none
  | some s => jsParseInt s

/-- Decimal digit characters of a natural number, most significant first,
computed with a fuel argument so that the definition is structural and
evaluates in the kernel.  Models ToString on a non-negative integer. -/
def natCharsAux : ℕ → ℕ → List Char
  | 0, _ => []
  | fuel + 1, n =>
    if n < 10 then [Char.ofNat (48 + n)]
    else natCharsAux fuel (n / 10) ++ [Char.ofNat (48 + n % 10)]

/-- Decimal digit characters of a natural number. -/
def natChars (n : ℕ) : List Char := natCharsAux (n + 1) n

/-- Model of ToString on a natural number. -/
def natStr (n : ℕ) : String := (natChars n).asString

/-- Model of ToString on an integer. -/
def intStr (i : ℤ) : String :=
  if i < 0 then "-" ++ natStr i.natAbs else natStr i.natAbs

/-- Model of s.slice(-2): the last two characters, or the whole string
when it is shorter. -/
def last2 (s : String) : String :=
  (s.data.drop (s.data.length - 2)).asString

/-- Model of Array.prototype.indexOf on a list of strings: the index of
the first occurrence, or -1. -/
def jsIndexOf (l : List String) (s : String) : ℤ :=
  match l.indexOf? s with
  | some i => (i : ℤ)
  | none => -1

/-! ## JavaScript stable sort and Map -/

/-- Insert an element into a list, in front of the first element that the
comparator places strictly after it.  Building block of the stable sort
model. -/
def insertSorted (c : α → α → ℤ) (x : α) : List α → List α
  | [] => [x]
  | y :: ys => if c x y < 0 then x :: y :: ys else y :: insertSorted c x ys

/-- Model of Array.prototype.sort with a numeric comparator: a stable
insertion sort.  A comparator result that would be NaN in JavaScript is
modelled as 0 by the comparators defined below. -/
def jsSortBy (c : α → α → ℤ) (l : List α) : List α :=
  l.foldl (fun acc x => insertSorted c x acc) []

/-! ## Calendar arithmetic: model of the JavaScript Date -/

/-- Leap year rule of the proleptic Gregorian calendar, as the Date
object implements it. -/
def isLeap (y : ℤ) : Bool :=
  y % 4 == 0 && (y % 100 != 0 || y % 400 == 0)

/-- Number of days of month m (0-based) of year y. -/
def monthLen (y : ℤ) (m : ℕ) : ℤ :=
  [31, if isLeap y then 29 else 28, 31, 30, 31, 30,
   31, 31, 30, 31, 30, 31].getD m 31

/-- A valid Date value: a normalized calendar date.  Invalid Date is
modelled as none at use sites. -/
structure JsDate where
  year : ℤ
  month : ℕ
  day : ℤ
deriving DecidableEq, Repr

/-- Normalize a day-of-month that may lie outside the month, moving
month by month, with a fuel argument keeping the recursion structural.
Models the rollover performed by the Date constructor and setDate. -/
def normDays : ℕ → ℤ → ℕ → ℤ → JsDate
  | 0, y, m, d => ⟨y, m, d⟩
  | fuel + 1, y, m, d =>
    if d < 1 then
      let y2 := if m = 0 then y - 1 else y
      let m2 := if m = 0 then 11 else m - 1
      normDays fuel y2 m2 (d + monthLen y2 m2)
    else if monthLen y m < d then
      let y2 := if m = 11 then y + 1 else y
      let m2 := if m = 11 then 0 else m + 1
      normDays fuel y2 m2 (d - monthLen y m)
    else ⟨y, m, d⟩

/-- Model of new Date(year, monthIndex, day) with number arguments: the
month index may be any integer (it rolls the year) and the day may lie
outside the month (it rolls the month). -/
def jsMkDate (y m d : ℤ) : JsDate :=
  let y0 := y + m.fdiv 12
  let m0 := (m.emod 12).toNat
  normDays (d.natAbs + 48) y0 m0 d

/-- Strict chronological order of normalized dates, as comparison of
getTime values. -/
def dateLtb (a b : JsDate) : Bool :=
  a.year < b.year ||
    (a.year = b.year &&
      (a.month < b.month || (a.month = b.month && a.day < b.day)))

/-- Model of the comparison currentDate >= nextStart between two Date
values that may be Invalid: any comparison with an Invalid Date is
false, because getTime of an Invalid Date is NaN. -/
def dateGeb : Option JsDate → Option JsDate → Bool
  | some a, some b => !dateLtb a b
  | _, _ => false

/-- Month-name table shared by page.tsx and the overlay component. -/
def monthNames : List String :=
  ["Jan", "Feb", "Mar", "Apr", "May", "Jun",
   "Jul", "Aug", "Sep", "Oct", "Nov", "Dec"]

/-- Model of monthNames[i]: out-of-range indexing gives undefined, which
stringifies to undefined inside a template literal. -/
def monthNameAt (m : ℕ) : String := monthNames.getD m "undefined"

/-- Daily label template of page.tsx lines 140-143 and of the overlay
weekly aggregation: month name, space, day, comma, space, last two
digits of the year. -/
def fmtDaily (dt : JsDate) : String :=
  monthNameAt dt.month ++ " " ++ intStr dt.day ++ ", " ++ last2 (intStr dt.year)

/-- Model of Math.round: half-units round toward positive infinity. -/
def jsRound (q : ℚ) : ℤ := ⌊q + 1 / 2⌋

/-! ## Trendline samples -/

/-- One trendline sample of the fixture: period label, conversation
volume, optional reach.  Numbers are modelled as integers. -/
structure Sample where
  period : String
  conversations : ℤ
  reach : Option ℤ
deriving DecidableEq, Repr

/-! ## Seeded generator (page.tsx lines 84-90) -/

/-- Bit pattern of the mulberry32 mixing function of page.tsx: every
JavaScript bitwise step operates on the 32-bit pattern of its operand,
so the whole computation is exact on naturals reduced mod 2^32.  The
returned pattern divided by 2^32 is the exact double produced by the
source. -/
def mulberry32 (seed : ℤ) : ℕ :=
  let t0 := ((seed + 0x6D2B79F5).emod 4294967296).toNat
  let t1 := ((t0 ^^^ (t0 >>> 15)) * (t0 ||| 1)) % 4294967296
  let q := ((t1 ^^^ (t1 >>> 7)) * (t1 ||| 61)) % 4294967296
  let t2 := (t1 + q) % 4294967296
  let t3 := t1 ^^^ t2
  t3 ^^^ (t3 >>> 14)

/-- Model of seededRandom.  A NaN seed (none) collapses to 0 through the
bitwise conversions, and mulberry32 of a NaN seed returns exactly 0, so
the none branch returns 0. -/
def seededRandom : Option ℤ → ℚ
  | none => 0
  | some s => (mulberry32 s : ℚ) / 4294967296

/-! ## Weekly-to-daily synthesizer (page.tsx lines 93-150) -/

/-- Seed of the weight of day offset d of source record i, a function of
the full year, the month index, the day of month, the day offset and the
record index only (page.tsx line 116).  none models a NaN year or day
contaminating the arithmetic. -/
def weightSeed (fullYear day : Option ℤ) (monthIdx : ℤ) (i d : ℕ) : Option ℤ :=
  match fullYear, day with
  | some fy, some dy => some (fy * 10000 + (monthIdx + 1) * 100 + dy + (d : ℤ) * 7 + (i : ℤ) * 31)
  | _, _ => none

/-- Raw weight of day offset d (page.tsx line 117). -/
def rawWeight (fullYear day : Option ℤ) (monthIdx : ℤ) (i d : ℕ) : ℚ :=
  1 / 2 + seededRandom (weightSeed fullYear day monthIdx i d) * (3 / 2)

/-- Overlap test of page.tsx lines 126-135: stop when the current date
would reach the start date of the next record.  Comparisons with an
Invalid Date are false. -/
def overlapsNext (next : Option Sample) (cur : Option JsDate) : Bool :=
  match next with
  | none => false
  | some nx =>
    let nparts := jsSplit nx.period ' '
    if nparts.length = 3 then
      let nMonth := jsIndexOf monthNames (nparts.getD 0 "")
      let nDay := jsParseInt (jsRemoveFirst ',' (nparts.getD 1 ""))
      let nYear := (jsParseInt (nparts.getD 2 "")).map
        (fun y => if y < 50 then 2000 + y else 1900 + y)
      match nDay, nYear with
      | some nd, some ny => dateGeb cur (some (jsMkDate ny nMonth nd))
      | _, _ => false
    else false

/-- Token list of the period of a record (page.tsx line 100). -/
def weekParts (item : Sample) : List String := jsSplit item.period ' '

/-- Month index parsed from the first token (page.tsx line 107). -/
def weekMonthIdx (item : Sample) : ℤ :=
  jsIndexOf monthNames ((weekParts item).getD 0 "")

/-- Day of month parsed from the second token (page.tsx line 104). -/
def weekDayNum (item : Sample) : Option ℤ :=
  jsParseInt (jsRemoveFirst ',' ((weekParts item).getD 1 ""))

/-- Two-digit year parsed from the third token (page.tsx line 105). -/
def weekYearNum (item : Sample) : Option ℤ :=
  jsParseInt ((weekParts item).getD 2 "")

/-- Full year of a record (page.tsx line 106). -/
def weekFullYear (item : Sample) : Option ℤ :=
  (weekYearNum item).map (fun y => if y < 50 then 2000 + y else 1900 + y)

/-- Start date of a record (page.tsx line 108); none models an Invalid
Date built from a NaN component. -/
def weekStart (item : Sample) : Option JsDate :=
  match weekFullYear item, weekDayNum item with
  | some fy, some dd => some (jsMkDate fy (weekMonthIdx item) dd)
  | _, _ => none

/-- Date of day offset d of a record: copy the start date and setDate
to start day plus offset (page.tsx lines 122-123). -/
def weekCur (item : Sample) (d : ℕ) : Option JsDate :=
  (weekStart item).map (fun s => jsMkDate s.year (s.month : ℤ) (s.day + (d : ℤ)))

/-- Weight of day offset d of record number i (page.tsx lines 114-118). -/
def weekWeight (item : Sample) (i d : ℕ) : ℚ :=
  rawWeight (weekFullYear item) (weekDayNum item) (weekMonthIdx item) i d

/-- Sum of the seven raw weights of record number i (page.tsx line 119). -/
def weekWeightSum (item : Sample) (i : ℕ) : ℚ :=
  ((List.range 7).map (weekWeight item i)).sum

/-- Daily samples synthesized from record number i of the trendline,
with next the following record when one exists (the body of the outer
loop of weeklyToDaily).  A record whose period does not split into three
tokens is skipped.  When the parsed day or year is NaN the start date is
Invalid and the emitted labels are the string undefined NaN, aN that the
template literal produces from an Invalid Date. -/
def weekDaily (i : ℕ) (item : Sample) (next : Option Sample) : List Sample :=
  if (weekParts item).length = 3 then
    ((List.range 7).takeWhile (fun d => !(overlapsNext next (weekCur item d)))).map
      (fun d =>
        { period := match weekCur item d with
            | some c => fmtDaily c
            | none => "undefined NaN, aN"
          conversations := jsRound ((item.conversations : ℚ) * weekWeight item i d / weekWeightSum item i)
          reach := some (jsRound ((item.reach.getD 0 : ℚ) * weekWeight item i d / weekWeightSum item i)) })
  else []

/-- Model of weeklyToDaily: the concatenation of the daily samples of
every record of the trendline. -/
def weeklyToDaily (t : List Sample) : List Sample :=
  ((List.range t.length).map (fun i =>
    match t.get? i with
    | some item => weekDaily i item (t.get? (i + 1))
    | none => [])).flatten

/-! ## Monthly aggregator of page.tsx (lines 176-207) -/

/-- Aggregated monthly entry: period label, conversation sum, reach
sum. -/
structure MSample where
  period : String
  conversations : ℤ
  reach : ℤ
deriving DecidableEq, Repr

/-- Model of the Map update monthlyMap.set(key, existing + values): an
existing key keeps its position and accumulates, a new key is appended,
matching the insertion-order iteration of a JavaScript Map. -/
def mapSetAdd : List (String × ℤ × ℤ) → String → ℤ → ℤ → List (String × ℤ × ℤ)
  | [], k, c, r => [(k, c, r)]
  | (k0, c0, r0) :: rest, k, c, r =>
    if k0 = k then (k0, c0 + c, r0 + r) :: rest
    else (k0, c0, r0) :: mapSetAdd rest k c r

/-- Month-order table of the sort comparator (page.tsx line 196). -/
def monthOrder : List String :=
  ["Jan", "Feb", "Mar", "Apr", "May", "Jun",
   "Jul", "Aug", "Sep", "Oct", "Nov", "Dec"]

/-- Sort comparator of page.tsx lines 199-206: compare parsed years,
then month positions.  When either parsed year is NaN the subtraction
is NaN, modelled as 0 (the element keeps its position). -/
def cmpMonthly (a b : MSample) : ℤ :=
  let ay := jsParseIntOpt ((jsSplit a.period ' ').get? 2)
  let byr := jsParseIntOpt ((jsSplit b.period ' ').get? 2)
  match ay, byr with
  | some x, some y =>
    if x ≠ y then x - y
    else jsIndexOf monthOrder ((jsSplit a.period ' ').getD 0 "") -
      jsIndexOf monthOrder ((jsSplit b.period ' ').getD 0 "")
  | _, _ => 0

/-- Model of aggregateToMonthly of page.tsx: samples whose period does
not split into three tokens are dropped; the others accumulate into the
bucket keyed by month token, the literal 1, and year token; buckets are
emitted in insertion order and then sorted. -/
def aggregateToMonthly (t : List Sample) : List MSample :=
  let m := t.foldl (fun acc item =>
    let parts := jsSplit item.period ' '
    if parts.length = 3 then
      mapSetAdd acc (parts.getD 0 "" ++ " 1, " ++ parts.getD 2 "")
        item.conversations (item.reach.getD 0)
    else acc) []
  jsSortBy cmpMonthly (m.map (fun e => ⟨e.1, e.2.1, e.2.2⟩))

/-- Reading an aggregated series back as a trendline, as the source does
when it feeds aggregated data to another transform. -/
def msamplesToSamples (l : List MSample) : List Sample :=
  l.map (fun e => ⟨e.period, e.conversations, some e.reach⟩)

/-! ## Period parser and overlay aggregator (TrendlineOverlay component) -/

/-- Model of parsePeriodToDate: three tokens are the daily format, two
tokens the monthly format (day 1); two-digit years below 50 map to
2000 plus the year, others to 1900 plus the year; a month token that is
not a month name gives index -1, which the Date constructor rolls into
the previous year; a day or year that parses to NaN gives an Invalid
Date, modelled as none. -/
def parsePeriodToDate (period : String) : Option JsDate :=
  let parts := jsSplit period ' '
  let monthIndex := jsIndexOf monthNames (parts.getD 0 "")
  let dayYear : Option ℤ × Option ℤ :=
    if parts.length = 3 then
      (jsParseInt (jsRemoveFirst ',' (parts.getD 1 "")), jsParseInt (parts.getD 2 ""))
    else
      (some 1, jsParseIntOpt (parts.get? 1))
  match dayYear.1, dayYear.2 with
  | some d, some y =>
    some (jsMkDate (if y < 50 then 2000 + y else 1900 + y) monthIndex d)
  | _, _ => none

/-- Sample of the overlay component: period label and conversation
count. -/
structure TSample where
  period : String
  conversations : ℤ
deriving DecidableEq, Repr

/-- Map update of the overlay aggregators: add to an existing bucket in
place or append a new one. -/
def mapSetAdd1 : List (String × ℤ) → String → ℤ → List (String × ℤ)
  | [], k, c => [(k, c)]
  | (k0, c0) :: rest, k, c =>
    if k0 = k then (k0, c0 + c) :: rest
    else (k0, c0) :: mapSetAdd1 rest k c

/-- Sort comparator of the overlay aggregators: difference of getTime
values, modelled by its sign; getTime of an Invalid Date is NaN and a
NaN comparator result is modelled as 0. -/
def cmpByDate (a b : TSample) : ℤ :=
  match parsePeriodToDate a.period, parsePeriodToDate b.period with
  | some x, some y => if dateLtb x y then -1 else if x = y then 0 else 1
  | _, _ => 0

namespace Overlay

/-- Model of aggregateToMonthly of the overlay component: every sample
is parsed and bucketed under the first of its month; a sample with an
unparseable period is NOT dropped, it lands in the bucket keyed by the
template literal rendered from an Invalid Date, which is the string
undefined 1, aN (monthNames[NaN] is undefined, and NaN toString slice -2
is aN). -/
def aggregateToMonthly (data : List TSample) : List TSample :=
  let m := data.foldl (fun acc item =>
    let key := match parsePeriodToDate item.period with
      | some date => monthNameAt date.month ++ " 1, " ++ last2 (intStr date.year)
      | none => "undefined 1, aN"
    mapSetAdd1 acc key item.conversations) []
  jsSortBy cmpByDate (m.map (fun e => ⟨e.1, e.2⟩))

end Overlay

/-! ## Boundary padder (TrendlineOverlay combinedData, lines 211-231) -/

/-- Boundary padding pass for one event: the column of the shared
chronological axis holding that event, none at a period the event does
not populate.  The source collects the indices with data, then writes a
zero immediately before the first and immediately after the last when
those positions exist. -/
def padBoundary (col : List (Option ℤ)) : List (Option ℤ) :=
  let indices := (List.range col.length).filter (fun idx => (col.getD idx none).isSome)
  match indices with
  | [] => col
  | firstIdx :: rest =>
    let lastIdx := (firstIdx :: rest).getLastD firstIdx
    let col1 := if 0 < firstIdx then col.set (firstIdx - 1) (some 0) else col
    if lastIdx < col.length - 1 then col1.set (lastIdx + 1) (some 0) else col1

/-! ## Dual-axis domain aligner (Timeline.tsx lines 582-620) -/

/-- One geography of the sales fixture: name and monthly percentage
points. -/
structure SalesGeo where
  name : String
  data : List (String × ℚ)
deriving DecidableEq, Repr

/-- Division as JavaScript performs it on finite doubles: a zero divisor
produces NaN or an infinity, modelled as none. -/
def jsDiv (a b : ℚ) : Option ℚ := if b = 0 then none else some (a / b)

/-- Model of the salesDomain memo: running minimum and maximum of every
geography value starting from 0, ten percent padding, floor and ceil to
whole numbers; without sales data the fallback domain is -20 to 15. -/
def salesDomain (salesData : Option (List SalesGeo)) : ℤ × ℤ :=
  match salesData with
  | none => (-20, 15)
  | some geos =>
    let mm := geos.foldl (fun mm geo =>
      geo.data.foldl (fun mm d =>
        (if d.2 < mm.1 then d.2 else mm.1, if mm.2 < d.2 then d.2 else mm.2)) mm)
      ((0 : ℚ), (0 : ℚ))
    let padding := max |mm.1| |mm.2| * (1 / 10)
    (⌊mm.1 - padding⌋, ⌈mm.2 + padding⌉)

/-- Model of the conversationDomain memo: without sales data, with the
sales overlay hidden, or in the reach view the domain is 0 to the
conversation maximum; otherwise the minimum is extended so the zeros of
the two axes align.  none models a NaN or infinite bound reached through
a zero divisor. -/
def conversationDomain (salesData : Option (List SalesGeo))
    (showSalesData isReachView : Bool) (maxConversations : ℚ) : Option (ℚ × ℚ) :=
  if salesData.isNone || !showSalesData || isReachView then
    some (0, maxConversations)
  else
    let sd := salesDomain salesData
    let salesRange : ℚ := (sd.2 : ℚ) - (sd.1 : ℚ)
    match jsDiv |(sd.1 : ℚ)| salesRange with
    | none => none
    | some r =>
      match jsDiv (-maxConversations * r) (1 - r) with
      | none => none
      | some cmin => some (cmin, maxConversations)

/-! ## Event markers (Timeline.tsx lines 155-175 and 689-709) -/

/-- Event record shape of the page (src/types/index.ts). -/
structure TimelineEvent where
  id : String
  date : String
  title : String
  description : String
  image : String
  impact : String
  indianParticipation : ℤ
deriving DecidableEq, Repr

/-- Default event value, used only to state positional facts with
getD. -/
instance : Inhabited TimelineEvent := ⟨⟨"", "", "", "", "", "", 0⟩⟩

/-- Chart point shape of the page (src/types/index.ts). -/
structure ChartDataPoint where
  date : String
  conversations : ℤ
deriving DecidableEq, Repr

/-- Map update of the dateToConversations memo: a repeated date keeps
its position and takes the later value. -/
def mapSetPoint : List (String × ℤ) → String → ℤ → List (String × ℤ)
  | [], k, v => [(k, v)]
  | (k0, v0) :: rest, k, v =>
    if k0 = k then (k0, v) :: rest
    else (k0, v0) :: mapSetPoint rest k v

/-- Lookup in the assoc-list model of a Map. -/
def mapGet : List (String × ℤ) → String → Option ℤ
  | [], _ => none
  | (k0, v0) :: rest, k => if k0 = k then some v0 else mapGet rest k

/-- The dateToConversations memo: date of each chart point mapped to its
conversation count. -/
def dateToConversations (chartData : List ChartDataPoint) : List (String × ℤ) :=
  chartData.foldl (fun m d => mapSetPoint m d.date d.conversations) []

/-- The firstChartDate fallback: date of the first chart point, or the
empty string for an empty chart. -/
def firstChartDate (chartData : List ChartDataPoint) : String :=
  match chartData with
  | [] => ""
  | p :: _ => p.date

/-- Model of the eventMarkers memo: each event is displayed at its own
date when the chart holds that date and at the first chart date
otherwise, carrying the conversation count recorded at the displayed
date (0 when absent, since undefined or 0 both fall to 0). -/
def eventMarkers (events : List TimelineEvent) (chartData : List ChartDataPoint) :
    List (TimelineEvent × ℤ) :=
  let m := dateToConversations chartData
  events.map (fun e =>
    let hasMatchingDate := (mapGet m e.date).isSome
    let displayDate := if hasMatchingDate then e.date else firstChartDate chartData
    ({ e with date := displayDate }, (mapGet m displayDate).getD 0))

/-! ## Well-formed period labels -/

/-- Year denoted by a two-digit year token: below 50 maps to the 2000s,
otherwise to the 1900s. -/
def fullYearOf (yy : ℕ) : ℤ := if yy < 50 then 2000 + (yy : ℤ) else 1900 + (yy : ℤ)

/-- Two-digit rendering of a year below 100, as slice(-2) of a
four-digit year produces it. -/
def pad2 (yy : ℕ) : String :=
  if yy < 10 then "0" ++ natStr yy else natStr yy

/-- A well-formed daily label: month abbreviation, space, day without
padding, comma, space, two-digit year. -/
def mkDailyLabel (mi d yy : ℕ) : String :=
  monthNames.getD mi "" ++ " " ++ natStr d ++ ", " ++ pad2 yy

/-- A well-formed monthly label: month abbreviation, space, two-digit
year. -/
def mkMonthlyLabel (mi yy : ℕ) : String :=
  monthNames.getD mi "" ++ " " ++ pad2 yy

/-- Modelled from the spec: the monthly-granularity label format is the
month abbreviation followed by the two-digit year.  The source parses
this format (the two-token branch of parsePeriodToDate) but contains no
same-granularity formatter for it, so the formatter is taken from the
data-model section of the specification. -/
def fmtMonthly (dt : JsDate) : String :=
  monthNameAt dt.month ++ " " ++ last2 (intStr dt.year)

end DCT




namespace DCT

/-! # Theorems -/

/-! ## Generic lemmas about the embedded primitives -/

theorem seededRandom_nonneg (s : Option ℤ) : 0 ≤ seededRandom s := by
  cases s with
  | none => simp [seededRandom]
  | some v =>
    simp only [seededRandom]
    positivity

theorem half_le_weekWeight (item : Sample) (i d : ℕ) :
    1 / 2 ≤ weekWeight item i d := by
  have h := seededRandom_nonneg
    (weightSeed (weekFullYear item) (weekDayNum item) (weekMonthIdx item) i d)
  have h2 : 0 ≤ seededRandom
      (weightSeed (weekFullYear item) (weekDayNum item) (weekMonthIdx item) i d) * (3 / 2) := by
    positivity
  unfold weekWeight rawWeight
  linarith

theorem jsRound_le (q : ℚ) : (jsRound q : ℚ) ≤ q + 1 / 2 := by
  unfold jsRound
  exact Int.floor_le (q + 1 / 2)

theorem lt_jsRound (q : ℚ) : q - 1 / 2 < (jsRound q : ℚ) := by
  unfold jsRound
  have := Int.lt_floor_add_one (q + 1 / 2)
  have h2 := Int.sub_one_lt_floor (q + 1 / 2)
  linarith

theorem insertSorted_perm (c : α → α → ℤ) (x : α) (l : List α) :
    (insertSorted c x l).Perm (x :: l) := by
  induction l with
  | nil => exact List.Perm.refl _
  | cons y ys ih =>
    by_cases h : c x y < 0
    · simp [insertSorted, h]
    · simp only [insertSorted, h, if_false]
      exact (ih.cons y).trans (List.Perm.swap x y ys)

theorem jsSortBy_perm_aux (c : α → α → ℤ) (l acc : List α) :
    (l.foldl (fun acc x => insertSorted c x acc) acc).Perm (acc ++ l) := by
  induction l generalizing acc with
  | nil => simp
  | cons x xs ih =>
    have h1 : (xs.foldl (fun acc x => insertSorted c x acc) (insertSorted c x acc)).Perm
        (insertSorted c x acc ++ xs) := ih (insertSorted c x acc)
    have h2 : (insertSorted c x acc ++ xs).Perm ((x :: acc) ++ xs) :=
      (insertSorted_perm c x acc).append_right xs
    have h3 : ((x :: acc) ++ xs).Perm (acc ++ x :: xs) := List.perm_middle.symm
    exact (h1.trans h2).trans h3

theorem jsSortBy_perm (c : α → α → ℤ) (l : List α) :
    (jsSortBy c l).Perm l := jsSortBy_perm_aux c l []

end DCT

namespace DCT

/-! ## Claim C2: determinism of the synthesizer -/

/-- C2: the weekly-to-daily synthesizer is deterministic: identical
input trendlines give identical output, and the weight of a day is a
function of the full year, the month index, the day of month, the day
offset and the record index alone (through weightSeed), never of any
ambient state. -/
theorem weeklyToDaily_deterministic :
    (∀ t₁ t₂ : List Sample, t₁ = t₂ → weeklyToDaily t₁ = weeklyToDaily t₂) ∧
      (∀ (item : Sample) (i d : ℕ),
        weekWeight item i d =
          1 / 2 + seededRandom
            (weightSeed (weekFullYear item) (weekDayNum item) (weekMonthIdx item) i d) * (3 / 2)) :=
  ⟨fun _ _ h => h ▸ rfl, fun _ _ _ => rfl⟩

/-- Witness: the determinism theorem applied to the one-week example
trendline of the specification. -/
theorem weeklyToDaily_deterministic_witness :
    weeklyToDaily [⟨"Dec 26, 22", 700, none⟩] = weeklyToDaily [⟨"Dec 26, 22", 700, none⟩] :=
  weeklyToDaily_deterministic.1 [⟨"Dec 26, 22", 700, none⟩] [⟨"Dec 26, 22", 700, none⟩] rfl

end DCT

namespace DCT

set_option maxHeartbeats 1000000

/-! ## Claim C1: daily-sum law of the synthesizer -/

/-- C1, counterexample: the weekly input sample with period Dec 26, 22
and 700 conversations and no next week produces 7 daily entries labelled
Dec 26, 22 through Jan 1, 23 whose conversations sum to 701, not to the
reported weekly total 700: the source rounds each day independently and
never redistributes the rounding remainder. -/
theorem weeklyToDaily_example_sum_701 :
    ((weeklyToDaily [⟨"Dec 26, 22", 700, none⟩]).map (fun s => s.conversations)).sum = 701 ∧
      (weeklyToDaily [⟨"Dec 26, 22", 700, none⟩]).map (fun s => s.period)
        = ["Dec 26, 22", "Dec 27, 22", "Dec 28, 22", "Dec 29, 22", "Dec 30, 22",
           "Dec 31, 22", "Jan 1, 23"] := by
  have hw : weeklyToDaily [⟨"Dec 26, 22", 700, none⟩]
      = weekDaily 0 ⟨"Dec 26, 22", 700, none⟩ none := by
    simp [weeklyToDaily, List.range_succ]
  have hsplit : jsSplit "Dec 26, 22" ' ' = ["Dec", "26,", "22"] := by decide
  have hidx : jsIndexOf monthNames "Dec" = 11 := by decide
  have hday : jsParseInt (jsRemoveFirst ',' "26,") = some 26 := by decide
  have hyear : jsParseInt "22" = some 22 := by decide
  have hov : ∀ x, overlapsNext none x = false := fun x => rfl
  have hp0 : mulberry32 20221226 = 1851877866 := by decide
  have hp1 : mulberry32 20221233 = 1678033907 := by decide
  have hp2 : mulberry32 20221240 = 3109256880 := by decide
  have hp3 : mulberry32 20221247 = 272969574 := by decide
  have hp4 : mulberry32 20221254 = 4215252143 := by decide
  have hp5 : mulberry32 20221261 = 987036500 := by decide
  have hp6 : mulberry32 20221268 = 466535363 := by decide
  have hk0 : jsMkDate 2022 11 (26 + 0) = ⟨2022, 11, 26⟩ := by decide
  have hk1 : jsMkDate 2022 11 (26 + 1) = ⟨2022, 11, 27⟩ := by decide
  have hk2 : jsMkDate 2022 11 (26 + 2) = ⟨2022, 11, 28⟩ := by decide
  have hk3 : jsMkDate 2022 11 (26 + 3) = ⟨2022, 11, 29⟩ := by decide
  have hk4 : jsMkDate 2022 11 (26 + 4) = ⟨2022, 11, 30⟩ := by decide
  have hk5 : jsMkDate 2022 11 (26 + 5) = ⟨2022, 11, 31⟩ := by decide
  have hk6 : jsMkDate 2022 11 (26 + 6) = ⟨2023, 0, 1⟩ := by decide
  have hmk : jsMkDate 2022 11 26 = ⟨2022, 11, 26⟩ := by decide
  have hf0 : fmtDaily ⟨2022, 11, 26⟩ = "Dec 26, 22" := by decide
  have hf1 : fmtDaily ⟨2022, 11, 27⟩ = "Dec 27, 22" := by decide
  have hf2 : fmtDaily ⟨2022, 11, 28⟩ = "Dec 28, 22" := by decide
  have hf3 : fmtDaily ⟨2022, 11, 29⟩ = "Dec 29, 22" := by decide
  have hf4 : fmtDaily ⟨2022, 11, 30⟩ = "Dec 30, 22" := by decide
  have hf5 : fmtDaily ⟨2022, 11, 31⟩ = "Dec 31, 22" := by decide
  have hf6 : fmtDaily ⟨2023, 0, 1⟩ = "Jan 1, 23" := by decide
  rw [hw]
  simp only [weekDaily, weekParts, weekMonthIdx, weekDayNum, weekYearNum, weekFullYear,
    weekStart, weekCur, weekWeight, weekWeightSum, hsplit, hidx, hday, hyear,
    List.getD, List.length_cons, List.length_nil, List.getElem?_cons_zero,
    List.getElem?_cons_succ, Option.getD_some, Option.getD_none, hov, Bool.not_false]
  norm_num [rawWeight, weightSeed, seededRandom, hp0, hp1, hp2, hp3, hp4, hp5, hp6,
    hday, hyear, hidx, hmk, hk0, hk1, hk2, hk3, hk4, hk5, hk6,
    hf0, hf1, hf2, hf3, hf4, hf5, hf6, hsplit,
    weekWeight, weekParts, weekMonthIdx, weekDayNum, weekYearNum, weekFullYear,
    weekStart, weekCur, weekWeightSum,
    List.range, List.range.loop, List.takeWhile, List.map,
    List.sum_cons, List.sum_nil, jsRound, Option.map_some]
  decide

/-- C1, amended: a weekly record with a three-token period label that
does not overlap the next record produces exactly 7 daily entries, and
their conversations sum lies within 3 units of the reported weekly
total (the exact-sum version fails, see the counterexample). -/
theorem weekDaily_total_within_three (i : ℕ) (item : Sample) (next : Option Sample)
    (h3 : (weekParts item).length = 3)
    (hnb : ∀ d, d < 7 → overlapsNext next (weekCur item d) = false) :
    (weekDaily i item next).length = 7 ∧
      |((weekDaily i item next).map (fun s => s.conversations)).sum - item.conversations| ≤ 3 := by
  have hr : List.range 7 = [0, 1, 2, 3, 4, 5, 6] := rfl
  have htw : (List.range 7).takeWhile (fun d => !(overlapsNext next (weekCur item d)))
      = [0, 1, 2, 3, 4, 5, 6] := by
    rw [hr]
    simp [List.takeWhile_cons, hnb 0 (by omega), hnb 1 (by omega), hnb 2 (by omega),
      hnb 3 (by omega), hnb 4 (by omega), hnb 5 (by omega), hnb 6 (by omega)]
  have hwd : weekDaily i item next
      = ([0, 1, 2, 3, 4, 5, 6] : List ℕ).map (fun d =>
          ({ period := match weekCur item d with
              | some c => fmtDaily c
              | none => "undefined NaN, aN"
             conversations := jsRound ((item.conversations : ℚ) * weekWeight item i d / weekWeightSum item i)
             reach := some (jsRound ((item.reach.getD 0 : ℚ) * weekWeight item i d / weekWeightSum item i)) } : Sample)) := by
    rw [weekDaily, if_pos h3, htw]
  have hlen : (weekDaily i item next).length = 7 := by rw [hwd]; rfl
  refine ⟨hlen, ?_⟩
  have hSdef : weekWeightSum item i
      = weekWeight item i 0 + weekWeight item i 1 + weekWeight item i 2 + weekWeight item i 3
        + weekWeight item i 4 + weekWeight item i 5 + weekWeight item i 6 := by
    rw [weekWeightSum, hr]
    simp [List.map_cons, List.sum_cons]
    ring
  have hSpos : 0 < weekWeightSum item i := by
    have h0 := half_le_weekWeight item i 0
    have h1 := half_le_weekWeight item i 1
    have h2 := half_le_weekWeight item i 2
    have h3w := half_le_weekWeight item i 3
    have h4 := half_le_weekWeight item i 4
    have h5 := half_le_weekWeight item i 5
    have h6 := half_le_weekWeight item i 6
    rw [hSdef]; linarith
  have hs : ((weekDaily i item next).map (fun s => s.conversations)).sum
      = jsRound ((item.conversations : ℚ) * weekWeight item i 0 / weekWeightSum item i)
        + jsRound ((item.conversations : ℚ) * weekWeight item i 1 / weekWeightSum item i)
        + jsRound ((item.conversations : ℚ) * weekWeight item i 2 / weekWeightSum item i)
        + jsRound ((item.conversations : ℚ) * weekWeight item i 3 / weekWeightSum item i)
        + jsRound ((item.conversations : ℚ) * weekWeight item i 4 / weekWeightSum item i)
        + jsRound ((item.conversations : ℚ) * weekWeight item i 5 / weekWeightSum item i)
        + jsRound ((item.conversations : ℚ) * weekWeight item i 6 / weekWeightSum item i) := by
    rw [hwd]
    simp [List.map_cons, List.sum_cons]
    ring
  have hxsum : (item.conversations : ℚ) * weekWeight item i 0 / weekWeightSum item i
        + (item.conversations : ℚ) * weekWeight item i 1 / weekWeightSum item i
        + (item.conversations : ℚ) * weekWeight item i 2 / weekWeightSum item i
        + (item.conversations : ℚ) * weekWeight item i 3 / weekWeightSum item i
        + (item.conversations : ℚ) * weekWeight item i 4 / weekWeightSum item i
        + (item.conversations : ℚ) * weekWeight item i 5 / weekWeightSum item i
        + (item.conversations : ℚ) * weekWeight item i 6 / weekWeightSum item i
      = (item.conversations : ℚ) := by
    have hne : weekWeightSum item i ≠ 0 := hSpos.ne'
    field_simp
    rw [hSdef]
    ring
  have hub : ((((weekDaily i item next).map (fun s => s.conversations)).sum : ℤ) : ℚ)
      ≤ (item.conversations : ℚ) + 7 / 2 := by
    rw [hs]
    push_cast
    have b0 := jsRound_le ((item.conversations : ℚ) * weekWeight item i 0 / weekWeightSum item i)
    have b1 := jsRound_le ((item.conversations : ℚ) * weekWeight item i 1 / weekWeightSum item i)
    have b2 := jsRound_le ((item.conversations : ℚ) * weekWeight item i 2 / weekWeightSum item i)
    have b3 := jsRound_le ((item.conversations : ℚ) * weekWeight item i 3 / weekWeightSum item i)
    have b4 := jsRound_le ((item.conversations : ℚ) * weekWeight item i 4 / weekWeightSum item i)
    have b5 := jsRound_le ((item.conversations : ℚ) * weekWeight item i 5 / weekWeightSum item i)
    have b6 := jsRound_le ((item.conversations : ℚ) * weekWeight item i 6 / weekWeightSum item i)
    linarith
  have hlb : (item.conversations : ℚ) - 7 / 2
      < ((((weekDaily i item next).map (fun s => s.conversations)).sum : ℤ) : ℚ) := by
    rw [hs]
    push_cast
    have b0 := lt_jsRound ((item.conversations : ℚ) * weekWeight item i 0 / weekWeightSum item i)
    have b1 := lt_jsRound ((item.conversations : ℚ) * weekWeight item i 1 / weekWeightSum item i)
    have b2 := lt_jsRound ((item.conversations : ℚ) * weekWeight item i 2 / weekWeightSum item i)
    have b3 := lt_jsRound ((item.conversations : ℚ) * weekWeight item i 3 / weekWeightSum item i)
    have b4 := lt_jsRound ((item.conversations : ℚ) * weekWeight item i 4 / weekWeightSum item i)
    have b5 := lt_jsRound ((item.conversations : ℚ) * weekWeight item i 5 / weekWeightSum item i)
    have b6 := lt_jsRound ((item.conversations : ℚ) * weekWeight item i 6 / weekWeightSum item i)
    linarith
  have hub2 : ((weekDaily i item next).map (fun s => s.conversations)).sum
      < item.conversations + 4 := by
    have h2 : ((((weekDaily i item next).map (fun s => s.conversations)).sum : ℤ) : ℚ)
        < ((item.conversations + 4 : ℤ) : ℚ) := by
      push_cast
      push_cast at hub
      linarith
    exact_mod_cast h2
  have hlb2 : item.conversations - 4
      < ((weekDaily i item next).map (fun s => s.conversations)).sum := by
    have h2 : ((item.conversations - 4 : ℤ) : ℚ)
        < ((((weekDaily i item next).map (fun s => s.conversations)).sum : ℤ) : ℚ) := by
      push_cast
      push_cast at hlb
      linarith
    exact_mod_cast h2
  rw [abs_le]
  omega

/-- Witness: the amended daily-sum theorem applied to the example week
Dec 26, 22 with 700 conversations. -/
theorem weekDaily_total_within_three_witness :
    (weekDaily 0 ⟨"Dec 26, 22", 700, none⟩ none).length = 7 ∧
      |((weekDaily 0 ⟨"Dec 26, 22", 700, none⟩ none).map (fun s => s.conversations)).sum - 700| ≤ 3 :=
  weekDaily_total_within_three 0 ⟨"Dec 26, 22", 700, none⟩ none (by decide) (fun _ _ => rfl)

end DCT

namespace DCT

/-! ## Claim C3: conservation of monthly aggregation -/

theorem mapSetAdd_conv_sum (m : List (String × ℤ × ℤ)) (k : String) (c r : ℤ) :
    ((mapSetAdd m k c r).map (fun e => e.2.1)).sum = (m.map (fun e => e.2.1)).sum + c := by
  induction m with
  | nil => simp [mapSetAdd]
  | cons e rest ih =>
    obtain ⟨k0, c0, r0⟩ := e
    by_cases h : k0 = k
    · simp [mapSetAdd, h]
      ring
    · simp [mapSetAdd, h, ih]
      ring

theorem aggFold_conv_sum (t : List Sample) (acc : List (String × ℤ × ℤ))
    (h : ∀ item ∈ t, (jsSplit item.period ' ').length = 3) :
    ((t.foldl (fun acc item =>
        let parts := jsSplit item.period ' '
        if parts.length = 3 then
          mapSetAdd acc (parts.getD 0 "" ++ " 1, " ++ parts.getD 2 "")
            item.conversations (item.reach.getD 0)
        else acc) acc).map (fun e => e.2.1)).sum
      = (acc.map (fun e => e.2.1)).sum + (t.map (fun s => s.conversations)).sum := by
  induction t generalizing acc with
  | nil => simp
  | cons x xs ih =>
    have hx := h x (List.mem_cons_self x xs)
    have hxs : ∀ item ∈ xs, (jsSplit item.period ' ').length = 3 :=
      fun item hm => h item (List.mem_cons_of_mem x hm)
    simp only [List.foldl_cons, hx, reduceIte]
    rw [ih _ hxs, mapSetAdd_conv_sum]
    simp [List.map_cons, List.sum_cons]
    ring

/-- C3, counterexample: a trendline holding one sample with a malformed
period label aggregates to the empty series, so the aggregated total 0
differs from the input total 5: conservation fails for arbitrary
trendlines because malformed samples are dropped. -/
theorem aggregateToMonthly_not_conserving :
    aggregateToMonthly [⟨"bad", 5, none⟩] = [] ∧
      ((aggregateToMonthly [⟨"bad", 5, none⟩]).map (fun e => e.conversations)).sum = 0 ∧
      (([⟨"bad", 5, none⟩] : List Sample).map (fun s => s.conversations)).sum = 5 := by
  decide

/-- C3, amended: over a trendline all of whose period labels split into
three tokens (the daily format the fixture uses), the sum of the
monthly-aggregated conversations equals the sum of the input
conversations. -/
theorem aggregateToMonthly_conserves (t : List Sample)
    (h : ∀ item ∈ t, (jsSplit item.period ' ').length = 3) :
    ((aggregateToMonthly t).map (fun e => e.conversations)).sum
      = (t.map (fun s => s.conversations)).sum := by
  simp only [aggregateToMonthly]
  have hperm := jsSortBy_perm cmpMonthly
    ((t.foldl (fun acc item =>
        let parts := jsSplit item.period ' '
        if parts.length = 3 then
          mapSetAdd acc (parts.getD 0 "" ++ " 1, " ++ parts.getD 2 "")
            item.conversations (item.reach.getD 0)
        else acc) []).map (fun e => (⟨e.1, e.2.1, e.2.2⟩ : MSample)))
  rw [(hperm.map (fun e => e.conversations)).sum_eq]
  rw [List.map_map]
  have := aggFold_conv_sum t [] h
  simpa using this

/-- Witness: conservation applied to a two-sample trendline with
well-formed daily labels. -/
theorem aggregateToMonthly_conserves_witness :
    ((aggregateToMonthly [⟨"Dec 26, 22", 700, some 3⟩, ⟨"Jan 2, 23", 100, none⟩]).map
        (fun e => e.conversations)).sum
      = (([⟨"Dec 26, 22", 700, some 3⟩, ⟨"Jan 2, 23", 100, none⟩] : List Sample).map
          (fun s => s.conversations)).sum :=
  aggregateToMonthly_conserves [⟨"Dec 26, 22", 700, some 3⟩, ⟨"Jan 2, 23", 100, none⟩] (by decide)

/-! ## Claim C5: degenerate sales domain divides by zero -/

/-- C5: with sales data present but holding no values, the sales domain
degenerates to min = max = 0 and the conversation-domain computation
divides Math.abs(0) by the zero range, producing a NaN axis minimum
(modelled none) instead of falling back to the no-secondary-data domain:
the guard the specification requires is absent from the source. -/
theorem conversationDomain_div_zero_on_degenerate_sales :
    salesDomain (some [⟨"Empty", []⟩]) = (0, 0) ∧
      conversationDomain (some [⟨"Empty", []⟩]) true false 1000 = none := by
  have h : salesDomain (some [⟨"Empty", []⟩]) = (0, 0) := by
    simp [salesDomain]
  refine ⟨h, ?_⟩
  simp [conversationDomain, h, jsDiv]

/-! ## Claim C7: malformed labels are not skipped by the overlay aggregator -/

/-- C7: the period parser returns the Invalid-Date sentinel (none) on a
malformed label, but the overlay monthly aggregator does not skip the
offending sample: it buckets its conversations under the garbage label
undefined 1, aN rendered from the Invalid Date, so the output is not
derived from well-formed samples only. -/
theorem overlay_aggregateToMonthly_keeps_malformed :
    parsePeriodToDate "garbage" = none ∧
      Overlay.aggregateToMonthly [⟨"garbage", 5⟩] = [⟨"undefined 1, aN", 5⟩] := by
  decide

end DCT

namespace DCT

/-! ## Claim C4: dual-axis domain alignment formula -/

/-- C4, amended: the aligner formula is applied to the PADDED axis
domain produced by salesDomain, not to the raw series minimum and
maximum: whenever the padded domain has a negative minimum and a
positive maximum, the primary minimum equals
-primaryMax * r / (1 - r) with r = abs(domainMin) / (domainMax - domainMin). -/
theorem conversationDomain_formula (geos : List SalesGeo) (maxConv : ℚ)
    (hmn : (salesDomain (some geos)).1 < 0) (hmx : 0 < (salesDomain (some geos)).2) :
    conversationDomain (some geos) true false maxConv
      = some (-maxConv *
          (|((salesDomain (some geos)).1 : ℚ)| /
            (((salesDomain (some geos)).2 : ℚ) - ((salesDomain (some geos)).1 : ℚ))) /
          (1 - |((salesDomain (some geos)).1 : ℚ)| /
            (((salesDomain (some geos)).2 : ℚ) - ((salesDomain (some geos)).1 : ℚ))),
          maxConv) := by
  have hmnq : ((salesDomain (some geos)).1 : ℚ) < 0 := by exact_mod_cast hmn
  have hmxq : (0 : ℚ) < ((salesDomain (some geos)).2 : ℚ) := by exact_mod_cast hmx
  have hrange : ((salesDomain (some geos)).2 : ℚ) - ((salesDomain (some geos)).1 : ℚ) ≠ 0 := by
    linarith
  have habs : |((salesDomain (some geos)).1 : ℚ)| = -((salesDomain (some geos)).1 : ℚ) :=
    abs_of_neg hmnq
  have hrlt : |((salesDomain (some geos)).1 : ℚ)| /
      (((salesDomain (some geos)).2 : ℚ) - ((salesDomain (some geos)).1 : ℚ)) < 1 := by
    rw [habs, div_lt_one (by linarith)]
    linarith
  have hone : (1 : ℚ) - |((salesDomain (some geos)).1 : ℚ)| /
      (((salesDomain (some geos)).2 : ℚ) - ((salesDomain (some geos)).1 : ℚ)) ≠ 0 := by
    intro hc
    rw [sub_eq_zero] at hc
    exact absurd hc.symm (ne_of_lt hrlt)
  simp only [conversationDomain, Option.isNone_some, Bool.not_true, Bool.false_or,
    Bool.or_false, if_false, jsDiv, hrange, reduceIte, hone]
  simp [hrange, hone]

/-- C4, counterexample: a secondary series whose raw range is exactly
-20 to 10 is first padded and rounded to the axis domain -22 to 12, so
the computed primary minimum for primary max 1000 is -5500/3, not the
-2000 the claim derives from the raw min and max. -/
theorem conversationDomain_example_pads :
    salesDomain (some [⟨"G", [("a", -20), ("b", 10)]⟩]) = (-22, 12) ∧
      conversationDomain (some [⟨"G", [("a", -20), ("b", 10)]⟩]) true false 1000
        = some (-5500 / 3, 1000) ∧
      (-5500 / 3 : ℚ) ≠ -2000 := by
  have hsd : salesDomain (some [⟨"G", [("a", -20), ("b", 10)]⟩]) = (-22, 12) := by
    norm_num [salesDomain, Int.ceil_eq_iff, Int.floor_eq_iff]
  refine ⟨hsd, ?_, by norm_num⟩
  have h := conversationDomain_formula [⟨"G", [("a", -20), ("b", 10)]⟩] 1000
    (by rw [hsd]; norm_num) (by rw [hsd]; norm_num)
  rw [h, hsd]
  norm_num

/-- Witness: the amended formula applied to a raw secondary range of
-18 to 8, whose padded domain is exactly -20 to 10, giving the primary
minimum -2000 of the specification example. -/
theorem conversationDomain_formula_witness :
    salesDomain (some [⟨"G", [("a", -18), ("b", 8)]⟩]) = (-20, 10) ∧
      conversationDomain (some [⟨"G", [("a", -18), ("b", 8)]⟩]) true false 1000
        = some (-2000, 1000) := by
  have hsd : salesDomain (some [⟨"G", [("a", -18), ("b", 8)]⟩]) = (-20, 10) := by
    norm_num [salesDomain, Int.ceil_eq_iff, Int.floor_eq_iff]
  refine ⟨hsd, ?_⟩
  have h := conversationDomain_formula [⟨"G", [("a", -18), ("b", 8)]⟩] 1000
    (by rw [hsd]; norm_num) (by rw [hsd]; norm_num)
  rw [h, hsd]
  norm_num

end DCT

namespace DCT

/-! ## Claim C6: boundary padding -/

theorem getD_set (l : List (Option ℤ)) (i m : ℕ) (v : Option ℤ) :
    (l.set i v).getD m none = if i = m ∧ i < l.length then v else l.getD m none := by
  induction l generalizing i m with
  | nil => simp
  | cons x xs ih =>
    cases i with
    | zero =>
      cases m with
      | zero => simp
      | succ m => simp
    | succ i =>
      cases m with
      | zero => simp
      | succ m =>
        simp only [List.set, List.getD_cons_succ, List.length_cons, ih]
        by_cases h : i = m ∧ i < xs.length
        · rw [if_pos h, if_pos ⟨by omega, by omega⟩]
        · rw [if_neg h, if_neg (by omega)]

theorem getLastD_cons_irrel (y : ℕ) (ys : List ℕ) (d1 d2 : ℕ) :
    (y :: ys).getLastD d1 = (y :: ys).getLastD d2 := by
  rw [List.getLastD_cons, List.getLastD_cons]

theorem pairwise_le_getLastD (xs : List ℕ) :
    ∀ x a : ℕ, (x :: xs).Pairwise (· < ·) → a ∈ x :: xs → a ≤ (x :: xs).getLastD x := by
  induction xs with
  | nil =>
    intro x a _ ha
    simp at ha
    simp [ha]
  | cons y ys ih =>
    intro x a hp ha
    have hstep : (x :: y :: ys).getLastD x = (y :: ys).getLastD y := by
      rw [List.getLastD_cons]
      exact getLastD_cons_irrel y ys x y
    rw [hstep]
    rcases List.mem_cons.mp ha with rfl | hmem
    · have hlt := (List.pairwise_cons.mp hp).1 (ys.getLastD y) (List.getLastD_mem_cons ys y)
      have heq : (y :: ys).getLastD y = ys.getLastD y := List.getLastD_cons y y ys
      omega
    · exact ih y a (List.pairwise_cons.mp hp).2 hmem

/-- C6: for an event column over the shared axis whose first populated
position is j and last populated position is k, the boundary padder
writes a zero immediately before j and immediately after k exactly when
those positions exist, never changes a populated position, and leaves
every position before j-1 or after k+1 empty. -/
theorem padBoundary_spec (col : List (Option ℤ)) (j k : ℕ)
    (hjlt : j < col.length) (hklt : k < col.length)
    (hj : (col.getD j none).isSome)
    (hjmin : ∀ m, m < j → col.getD m none = none)
    (hk : (col.getD k none).isSome)
    (hkmax : ∀ m, k < m → col.getD m none = none) :
    (0 < j → (padBoundary col).getD (j - 1) none = some 0) ∧
      (k + 1 < col.length → (padBoundary col).getD (k + 1) none = some 0) ∧
      (∀ m, (col.getD m none).isSome → (padBoundary col).getD m none = col.getD m none) ∧
      (∀ m, m + 1 < j → (padBoundary col).getD m none = none) ∧
      (∀ m, k + 1 < m → (padBoundary col).getD m none = none) := by
  have hjk : j ≤ k := by
    by_contra hc
    have := hkmax j (by omega)
    rw [this] at hj
    simp at hj
  have hpw : ((List.range col.length).filter (fun idx => (col.getD idx none).isSome)).Pairwise (· < ·) :=
    (List.pairwise_lt_range col.length).sublist (List.filter_sublist _)
  have hmem : ∀ m, m ∈ (List.range col.length).filter (fun idx => (col.getD idx none).isSome)
      ↔ (m < col.length ∧ (col.getD m none).isSome) := by
    intro m
    simp [List.mem_filter, List.mem_range]
  have hjmem : j ∈ (List.range col.length).filter (fun idx => (col.getD idx none).isSome) :=
    (hmem j).mpr ⟨hjlt, hj⟩
  have hkmem : k ∈ (List.range col.length).filter (fun idx => (col.getD idx none).isSome) :=
    (hmem k).mpr ⟨hklt, hk⟩
  obtain ⟨i0, rest, hind⟩ : ∃ i0 rest,
      (List.range col.length).filter (fun idx => (col.getD idx none).isSome) = i0 :: rest := by
    cases hl : (List.range col.length).filter (fun idx => (col.getD idx none).isSome) with
    | nil => rw [hl] at hjmem; simp at hjmem
    | cons a b => exact ⟨a, b, rfl⟩
  have hi0 : i0 = j := by
    have hi0mem : i0 ∈ (List.range col.length).filter (fun idx => (col.getD idx none).isSome) := by
      rw [hind]; exact List.mem_cons_self i0 rest
    have hi0some := ((hmem i0).mp hi0mem).2
    have hi0j : ¬ i0 < j := by
      intro hc
      rw [hjmin i0 hc] at hi0some
      simp at hi0some
    rw [hind] at hjmem
    rcases List.mem_cons.mp hjmem with rfl | hmemr
    · rfl
    · rw [hind] at hpw
      have := (List.pairwise_cons.mp hpw).1 j hmemr
      omega
  have hlastmem : (i0 :: rest).getLastD i0 ∈ i0 :: rest := by
    rw [List.getLastD_cons]
    exact List.getLastD_mem_cons rest i0
  have hlast : (i0 :: rest).getLastD i0 = k := by
    have hlmem2 : (i0 :: rest).getLastD i0
        ∈ (List.range col.length).filter (fun idx => (col.getD idx none).isSome) := by
      rw [hind]; exact hlastmem
    have hlle : (i0 :: rest).getLastD i0 ≤ k := by
      by_contra hc
      have hnone := hkmax _ (by omega : k < (i0 :: rest).getLastD i0)
      have hsome := ((hmem _).mp hlmem2).2
      rw [hnone] at hsome
      simp at hsome
    have hkle : k ≤ (i0 :: rest).getLastD i0 := by
      rw [hind] at hkmem hpw
      exact pairwise_le_getLastD rest i0 k hpw hkmem
    omega
  have hres : padBoundary col
      = (if (i0 :: rest).getLastD i0 < col.length - 1 then
          (if 0 < i0 then col.set (i0 - 1) (some 0) else col).set ((i0 :: rest).getLastD i0 + 1) (some 0)
        else (if 0 < i0 then col.set (i0 - 1) (some 0) else col)) := by
    rw [padBoundary, hind]
  rw [hlast, hi0] at hres
  have hlen1 : (if 0 < j then col.set (j - 1) (some 0) else col).length = col.length := by
    by_cases h0 : 0 < j
    · simp [h0]
    · simp [h0]
  have hcol1 : ∀ m, (if 0 < j then col.set (j - 1) (some 0) else col).getD m none
      = if 0 < j ∧ j - 1 = m then some 0 else col.getD m none := by
    intro m
    by_cases h0 : 0 < j
    · rw [if_pos h0, getD_set]
      by_cases hm : j - 1 = m
      · rw [if_pos ⟨hm, by omega⟩, if_pos ⟨h0, hm⟩]
      · rw [if_neg (by tauto), if_neg (by tauto)]
    · rw [if_neg h0, if_neg (by tauto)]
  have hfull : ∀ m, (padBoundary col).getD m none
      = if k < col.length - 1 ∧ k + 1 = m then some 0
        else if 0 < j ∧ j - 1 = m then some 0 else col.getD m none := by
    intro m
    rw [hres]
    by_cases hkc : k < col.length - 1
    · rw [if_pos hkc, getD_set, hlen1, hcol1]
      split_ifs with h1 h2 h3 <;> first | rfl | omega
    · rw [if_neg hkc, hcol1]
      split_ifs with h1 h2 h3 <;> first | rfl | omega
  refine ⟨?_, ?_, ?_, ?_, ?_⟩
  · intro h0
    rw [hfull]
    rw [if_neg (by omega), if_pos ⟨h0, rfl⟩]
  · intro hklen
    rw [hfull]
    rw [if_pos ⟨by omega, rfl⟩]
  · intro m hm
    rw [hfull]
    have hm1 : ¬ (k < col.length - 1 ∧ k + 1 = m) := by
      rintro ⟨-, rfl⟩
      rw [hkmax (k + 1) (by omega)] at hm
      simp at hm
    have hm2 : ¬ (0 < j ∧ j - 1 = m) := by
      rintro ⟨h0, rfl⟩
      rw [hjmin (j - 1) (by omega)] at hm
      simp at hm
    rw [if_neg hm1, if_neg hm2]
  · intro m hmj
    rw [hfull]
    rw [if_neg (by omega), if_neg (by omega), hjmin m (by omega)]
  · intro m hmk
    rw [hfull]
    rw [if_neg (by omega), if_neg (by omega), hkmax m (by omega)]


/-- Witness: the boundary padder applied to the axis P1..P5 with an
event populated only at P3: zero lands at P2 and P4, the value at P3
is kept, and P1 and P5 stay empty. -/
theorem padBoundary_spec_witness :
    (padBoundary [none, none, some 5, none, none]).getD 1 none = some 0 ∧
      (padBoundary [none, none, some 5, none, none]).getD 3 none = some 0 ∧
      (padBoundary [none, none, some 5, none, none]).getD 2 none = some 5 ∧
      (padBoundary [none, none, some 5, none, none]).getD 0 none = none ∧
      (padBoundary [none, none, some 5, none, none]).getD 4 none = none := by
  have h := padBoundary_spec [none, none, some 5, none, none] 2 2 (by norm_num) (by norm_num)
    (by decide) (by intro m hm; interval_cases m <;> rfl) (by decide)
    (by intro m hm
        match m, hm with
        | 3, _ => rfl
        | 4, _ => rfl
        | (n + 5), _ => rfl)
  refine ⟨h.1 (by norm_num), h.2.1 (by norm_num), ?_, ?_, ?_⟩
  · have h2 := h.2.2.1 2 (by decide)
    rw [h2]
    rfl
  · exact h.2.2.2.1 0 (by norm_num)
  · exact h.2.2.2.2 4 (by norm_num)

end DCT

namespace DCT

/-! ## Claim C10: event marker placement -/

theorem mapGet_mapSetPoint (m : List (String × ℤ)) (k : String) (v : ℤ) (x : String) :
    mapGet (mapSetPoint m k v) x = if x = k then some v else mapGet m x := by
  induction m with
  | nil =>
    simp only [mapSetPoint, mapGet]
    by_cases h : x = k
    · rw [if_pos h.symm, if_pos h]
    · rw [if_neg (fun hc => h hc.symm), if_neg h]
  | cons e rest ih =>
    obtain ⟨k0, v0⟩ := e
    by_cases h0 : k0 = k
    · subst h0
      simp only [mapSetPoint, if_pos rfl, mapGet]
      by_cases hx : k0 = x
      · rw [if_pos hx, if_pos hx.symm]
      · rw [if_neg hx, if_neg (fun hc => hx hc.symm), if_neg hx]
    · simp only [mapSetPoint, if_neg h0, mapGet]
      by_cases hx : k0 = x
      · have hxk : ¬ x = k := fun hc => h0 (hx.trans hc)
        rw [if_pos hx, if_neg hxk, if_pos hx]
      · rw [if_neg hx, ih]
        by_cases hk : x = k
        · rw [if_pos hk, if_pos hk]
        · rw [if_neg hk, if_neg hk, if_neg hx]

theorem mapGet_fold_isSome (l : List ChartDataPoint) :
    ∀ (acc : List (String × ℤ)) (x : String),
      (mapGet (l.foldl (fun m d => mapSetPoint m d.date d.conversations) acc) x).isSome
        ↔ ((mapGet acc x).isSome ∨ x ∈ l.map (fun p => p.date)) := by
  induction l with
  | nil => simp
  | cons d ds ih =>
    intro acc x
    simp only [List.foldl_cons, List.map_cons, List.mem_cons]
    rw [ih]
    rw [mapGet_mapSetPoint]
    by_cases hx : x = d.date
    · simp [hx]
    · simp [hx]

theorem dateToConversations_isSome (chartData : List ChartDataPoint) (x : String) :
    (mapGet (dateToConversations chartData) x).isSome
      ↔ x ∈ chartData.map (fun p => p.date) := by
  have h := mapGet_fold_isSome chartData [] x
  rw [dateToConversations]
  rw [h]
  simp [mapGet]

/-- C10: with a non-empty chart, the Timeline emits exactly one marker
per event; the marker sits at the event date when that date occurs in
the chart data and at the first chart date otherwise, so every marker
lies on an existing chart x-position, and it carries the conversation
count the dateToConversations table records at the displayed date, with
0 as the absent default. -/
theorem eventMarkers_spec (events : List TimelineEvent) (chartData : List ChartDataPoint)
    (hne : chartData ≠ []) :
    (eventMarkers events chartData).length = events.length ∧
      ∀ n, n < events.length →
        (((eventMarkers events chartData).getD n default).1.date
            = (if (events.getD n default).date ∈ chartData.map (fun p => p.date)
               then (events.getD n default).date else firstChartDate chartData)) ∧
          ((eventMarkers events chartData).getD n default).1.date
            ∈ chartData.map (fun p => p.date) ∧
          ((eventMarkers events chartData).getD n default).2
            = (mapGet (dateToConversations chartData)
                (((eventMarkers events chartData).getD n default).1.date)).getD 0 := by
  obtain ⟨p, rest, rfl⟩ : ∃ p rest, chartData = p :: rest := by
    cases chartData with
    | nil => exact absurd rfl hne
    | cons p rest => exact ⟨p, rest, rfl⟩
  refine ⟨by simp [eventMarkers], ?_⟩
  intro n hn
  have hgetm : (eventMarkers events (p :: rest)).getD n default
      = ((fun e =>
          ({ e with date := if (mapGet (dateToConversations (p :: rest)) e.date).isSome
              then e.date else firstChartDate (p :: rest) },
            (mapGet (dateToConversations (p :: rest))
              (if (mapGet (dateToConversations (p :: rest)) e.date).isSome
               then e.date else firstChartDate (p :: rest))).getD 0)) (events.getD n default)) := by
    simp only [eventMarkers]
    rw [List.getD_eq_getElem?_getD, List.getElem?_map,
      List.getElem?_eq_getElem hn, List.getD_eq_getElem?_getD, List.getElem?_eq_getElem hn]
    rfl
  have hfirstmem : firstChartDate (p :: rest) ∈ (p :: rest).map (fun q => q.date) := by
    simp [firstChartDate]
  rw [hgetm]
  by_cases hmem : (events.getD n default).date ∈ (p :: rest).map (fun q => q.date)
  · have hsome : (mapGet (dateToConversations (p :: rest)) (events.getD n default).date).isSome :=
      (dateToConversations_isSome (p :: rest) (events.getD n default).date).mpr hmem
    simp only [hsome, if_true, if_pos hmem]
    exact ⟨trivial, hmem, trivial⟩
  · have hsome : ¬ (mapGet (dateToConversations (p :: rest)) (events.getD n default).date).isSome :=
      fun hc => hmem ((dateToConversations_isSome (p :: rest) (events.getD n default).date).mp hc)
    rw [Bool.not_eq_true] at hsome
    simp only [hsome, if_neg hmem, Bool.false_eq_true, if_false]
    exact ⟨trivial, hfirstmem, trivial⟩

/-- Witness: two events over a two-point chart, one whose date occurs
in the chart and one whose date does not; each gets exactly one marker
on an existing chart position. -/
theorem eventMarkers_spec_witness :
    (eventMarkers
        [⟨"e1", "Jul 1, 23", "t", "d", "", "", 0⟩, ⟨"e2", "zzz", "t", "d", "", "", 0⟩]
        [⟨"Jun 1, 23", 4⟩, ⟨"Jul 1, 23", 9⟩]).length = 2 ∧
      ((eventMarkers
        [⟨"e1", "Jul 1, 23", "t", "d", "", "", 0⟩, ⟨"e2", "zzz", "t", "d", "", "", 0⟩]
        [⟨"Jun 1, 23", 4⟩, ⟨"Jul 1, 23", 9⟩]).getD 1 default).1.date
        ∈ ([⟨"Jun 1, 23", 4⟩, ⟨"Jul 1, 23", 9⟩] : List ChartDataPoint).map (fun p => p.date) := by
  have h := eventMarkers_spec
    [⟨"e1", "Jul 1, 23", "t", "d", "", "", 0⟩, ⟨"e2", "zzz", "t", "d", "", "", 0⟩]
    [⟨"Jun 1, 23", 4⟩, ⟨"Jul 1, 23", 9⟩] (by simp)
  exact ⟨h.1, (h.2 1 (by norm_num)).2.1⟩

end DCT

namespace DCT

/-! ## Claim C9: idempotence of monthly aggregation -/

theorem mem_insertSorted {c : α → α → ℤ} {x : α} {l : List α} {z : α}
    (h : z ∈ insertSorted c x l) : z = x ∨ z ∈ l :=
  List.mem_cons.mp ((insertSorted_perm c x l).mem_iff.mp h)

theorem pairwise_insertSorted {c : α → α → ℤ}
    (hA : ∀ a b, c a b = -(c b a))
    (hT : ∀ a b d, c a b < 0 → c b d < 0 → c a d < 0)
    (x : α) (l : List α) (hp : l.Pairwise (fun u w => ¬ c w u < 0)) :
    (insertSorted c x l).Pairwise (fun u w => ¬ c w u < 0) := by
  induction l with
  | nil => simp [insertSorted]
  | cons y ys ih =>
    rw [List.pairwise_cons] at hp
    by_cases hxy : c x y < 0
    · rw [insertSorted, if_pos hxy, List.pairwise_cons]
      constructor
      · intro w hw
        rcases List.mem_cons.mp hw with rfl | hmem
        · intro hc
          rw [hA] at hc
          omega
        · intro hcwx
          exact hp.1 w hmem (hT w x y hcwx hxy)
      · exact List.pairwise_cons.mpr hp
    · rw [insertSorted, if_neg hxy, List.pairwise_cons]
      constructor
      · intro w hw
        rcases mem_insertSorted hw with rfl | hmem
        · exact hxy
        · exact hp.1 w hmem
      · exact ih hp.2
  
theorem pairwise_jsSortBy_aux {c : α → α → ℤ}
    (hA : ∀ a b, c a b = -(c b a))
    (hT : ∀ a b d, c a b < 0 → c b d < 0 → c a d < 0)
    (l : List α) :
    ∀ acc : List α, acc.Pairwise (fun u w => ¬ c w u < 0) →
      (l.foldl (fun acc x => insertSorted c x acc) acc).Pairwise (fun u w => ¬ c w u < 0) := by
  induction l with
  | nil => intro acc hacc; simpa using hacc
  | cons x xs ih =>
    intro acc hacc
    exact ih (insertSorted c x acc) (pairwise_insertSorted hA hT x acc hacc)

theorem pairwise_jsSortBy {c : α → α → ℤ}
    (hA : ∀ a b, c a b = -(c b a))
    (hT : ∀ a b d, c a b < 0 → c b d < 0 → c a d < 0)
    (l : List α) :
    (jsSortBy c l).Pairwise (fun u w => ¬ c w u < 0) :=
  pairwise_jsSortBy_aux hA hT l [] (by simp)

theorem insertSorted_eq_append {c : α → α → ℤ} {x : α} {l : List α}
    (h : ∀ z ∈ l, ¬ c x z < 0) : insertSorted c x l = l ++ [x] := by
  induction l with
  | nil => rfl
  | cons y ys ih =>
    rw [insertSorted, if_neg (h y (List.mem_cons_self y ys))]
    rw [ih (fun z hz => h z (List.mem_cons_of_mem y hz))]
    rfl

theorem foldl_ins_of_pairwise {c : α → α → ℤ} (l : List α) :
    ∀ acc : List α, (acc ++ l).Pairwise (fun u w => ¬ c w u < 0) →
      l.foldl (fun acc x => insertSorted c x acc) acc = acc ++ l := by
  induction l with
  | nil => intro acc _; simp
  | cons x xs ih =>
    intro acc hp
    have hins : insertSorted c x acc = acc ++ [x] := by
      apply insertSorted_eq_append
      intro z hz
      exact (List.pairwise_append.mp hp).2.2 z hz x (List.mem_cons_self x xs)
    rw [List.foldl_cons, hins]
    have hp2 : ((acc ++ [x]) ++ xs).Pairwise (fun u w => ¬ c w u < 0) := by
      rw [List.append_assoc]
      simpa using hp
    rw [ih (acc ++ [x]) hp2]
    simp
  
theorem jsSortBy_idempotent {c : α → α → ℤ}
    (hA : ∀ a b, c a b = -(c b a))
    (hT : ∀ a b d, c a b < 0 → c b d < 0 → c a d < 0)
    (l : List α) :
    jsSortBy c (jsSortBy c l) = jsSortBy c l := by
  have hp := pairwise_jsSortBy hA hT l
  have := foldl_ins_of_pairwise (c := c) (jsSortBy c l) [] (by simpa using hp)
  simpa [jsSortBy] using this

theorem cmpMonthly_antisym (a b : MSample) : cmpMonthly a b = -(cmpMonthly b a) := by
  cases ha : jsParseIntOpt ((jsSplit a.period ' ').get? 2) <;>
    cases hb : jsParseIntOpt ((jsSplit b.period ' ').get? 2) <;>
    simp only [cmpMonthly, ha, hb] <;>
    omega

theorem cmpMonthly_strictTrans (a b d : MSample)
    (h1 : cmpMonthly a b < 0) (h2 : cmpMonthly b d < 0) : cmpMonthly a d < 0 := by
  cases ha : jsParseIntOpt ((jsSplit a.period ' ').get? 2) <;>
    cases hb : jsParseIntOpt ((jsSplit b.period ' ').get? 2) <;>
    cases hd : jsParseIntOpt ((jsSplit d.period ' ').get? 2) <;>
    simp only [cmpMonthly, ha, hb, hd] at h1 h2 ⊢ <;>
    omega

theorem splitChars_sepFree {sep : Char} : ∀ l : List Char, sep ∉ l → splitChars sep l = [l] := by
  intro l
  induction l with
  | nil => intro _; rfl
  | cons c cs ih =>
    intro h
    have hc : ¬ c = sep := fun hc => h (hc ▸ List.mem_cons_self c cs)
    have hcs : sep ∉ cs := fun hm => h (List.mem_cons_of_mem c hm)
    rw [splitChars, if_neg hc, ih hcs]

theorem splitChars_append {sep : Char} : ∀ a rest : List Char, sep ∉ a →
    splitChars sep (a ++ sep :: rest) = a :: splitChars sep rest := by
  intro a
  induction a with
  | nil =>
    intro rest _
    simp [splitChars]
  | cons c cs ih =>
    intro rest h
    have hc : ¬ c = sep := fun hc => h (hc ▸ List.mem_cons_self c cs)
    have hcs : sep ∉ cs := fun hm => h (List.mem_cons_of_mem c hm)
    rw [List.cons_append, splitChars, if_neg hc, ih rest hcs]

theorem splitChars_ne_nil {sep : Char} : ∀ l : List Char, splitChars sep l ≠ [] := by
  intro l
  induction l with
  | nil => simp [splitChars]
  | cons c cs ih =>
    rw [splitChars]
    by_cases hc : c = sep
    · simp [hc]
    · rw [if_neg hc]
      cases hsc : splitChars sep cs with
      | nil => exact absurd hsc ih
      | cons t ts => simp

theorem splitChars_tokens_sepFree {sep : Char} :
    ∀ l : List Char, ∀ t ∈ splitChars sep l, sep ∉ t := by
  intro l
  induction l with
  | nil =>
    intro t ht
    rw [splitChars] at ht
    simp at ht
    simp [ht]
  | cons c cs ih =>
    intro t ht
    rw [splitChars] at ht
    by_cases hc : c = sep
    · rw [if_pos hc] at ht
      rcases List.mem_cons.mp ht with rfl | hmem
      · simp
      · exact ih t hmem
    · rw [if_neg hc] at ht
      cases hsc : splitChars sep cs with
      | nil => exact absurd hsc (splitChars_ne_nil cs)
      | cons u us =>
        rw [hsc] at ht
        rcases List.mem_cons.mp ht with rfl | hmem
        · intro hm
          rcases List.mem_cons.mp hm with rfl | hmem2
          · exact hc rfl
          · exact ih u (hsc ▸ List.mem_cons_self u us) hmem2
        · exact ih t (hsc ▸ List.mem_cons_of_mem u hmem)

theorem asString_data (s : String) : s.data.asString = s := by
  cases s
  rfl

theorem data_asString (l : List Char) : l.asString.data = l := rfl

theorem jsSplit_tokens_sepFree (s : String) (sep : Char) :
    ∀ t ∈ jsSplit s sep, sep ∉ t.data := by
  intro t ht
  rw [jsSplit] at ht
  obtain ⟨u, hu, rfl⟩ := List.mem_map.mp ht
  rw [data_asString]
  exact splitChars_tokens_sepFree s.data u hu

theorem key_resplit (a b : String) (ha : ' ' ∉ a.data) (hb : ' ' ∉ b.data) :
    jsSplit (a ++ " 1, " ++ b) ' ' = [a, "1,", b] := by
  have hdata : (a ++ " 1, " ++ b).data = a.data ++ (' ' :: ('1' :: ',' :: (' ' :: b.data))) := by
    rw [String.data_append, String.data_append, List.append_assoc]
    rfl
  rw [jsSplit, hdata]
  rw [splitChars_append a.data _ ha]
  have h1 : ('1' :: ',' :: (' ' :: b.data)) = ['1', ','] ++ ' ' :: b.data := rfl
  rw [h1, splitChars_append ['1', ','] _ (by decide)]
  rw [splitChars_sepFree b.data hb]
  simp [asString_data]
  decide

theorem getD_mem_of_lt {l : List String} {n : ℕ} {d : String} (h : n < l.length) :
    l.getD n d ∈ l := by
  rw [List.getD_eq_getElem?_getD, List.getElem?_eq_getElem h]
  simp [List.getElem_mem]

theorem mapSetAdd_fresh (m : List (String × ℤ × ℤ)) (k : String) (c r : ℤ)
    (h : k ∉ m.map (fun e => e.1)) : mapSetAdd m k c r = m ++ [(k, c, r)] := by
  induction m with
  | nil => rfl
  | cons e rest ih =>
    obtain ⟨k0, c0, r0⟩ := e
    simp only [List.map_cons, List.mem_cons] at h
    rw [mapSetAdd, if_neg (fun hc => h (Or.inl hc.symm))]
    rw [ih (fun hm => h (Or.inr hm))]
    rfl

theorem mem_keys_mapSetAdd (m : List (String × ℤ × ℤ)) (k : String) (c r : ℤ) (x : String) :
    x ∈ (mapSetAdd m k c r).map (fun e => e.1) ↔ x ∈ m.map (fun e => e.1) ∨ x = k := by
  induction m with
  | nil => simp [mapSetAdd]
  | cons e rest ih =>
    obtain ⟨k0, c0, r0⟩ := e
    by_cases h0 : k0 = k
    · subst h0
      rw [mapSetAdd, if_pos rfl]
      simp
      tauto
    · rw [mapSetAdd, if_neg h0]
      simp only [List.map_cons, List.mem_cons, ih]
      tauto

theorem nodup_keys_mapSetAdd (m : List (String × ℤ × ℤ)) (k : String) (c r : ℤ)
    (h : (m.map (fun e => e.1)).Nodup) : ((mapSetAdd m k c r).map (fun e => e.1)).Nodup := by
  by_cases hk : k ∈ m.map (fun e => e.1)
  · induction m with
    | nil => simp at hk
    | cons e rest ih =>
      obtain ⟨k0, c0, r0⟩ := e
      simp only [List.map_cons, List.nodup_cons] at h
      by_cases h0 : k0 = k
      · subst h0
        rw [mapSetAdd, if_pos rfl]
        simp only [List.map_cons, List.nodup_cons]
        exact ⟨h.1, h.2⟩
      · simp only [List.map_cons, List.mem_cons] at hk
        have hkrest : k ∈ rest.map (fun e => e.1) := by
          rcases hk with hc | hm
          · exact absurd hc.symm h0
          · exact hm
        rw [mapSetAdd, if_neg h0]
        simp only [List.map_cons, List.nodup_cons]
        refine ⟨?_, ih h.2 hkrest⟩
        intro hc
        rw [mem_keys_mapSetAdd] at hc
        rcases hc with hm | rfl
        · exact h.1 hm
        · exact h.1 hkrest
  · rw [mapSetAdd_fresh m k c r hk]
    simp only [List.map_append, List.map_cons, List.map_nil]
    rw [List.nodup_append]
    refine ⟨h, List.nodup_singleton k, ?_⟩
    intro x hx
    simp only [List.mem_cons, List.not_mem_nil, or_false]
    intro hc
    subst hc
    exact hk hx

theorem fold_keys_nodup (t : List Sample) :
    ∀ acc : List (String × ℤ × ℤ), (acc.map (fun e => e.1)).Nodup →
      ((t.foldl (fun acc item =>
        let parts := jsSplit item.period ' '
        if parts.length = 3 then
          mapSetAdd acc (parts.getD 0 "" ++ " 1, " ++ parts.getD 2 "")
            item.conversations (item.reach.getD 0)
        else acc) acc).map (fun e => e.1)).Nodup := by
  induction t with
  | nil => intro acc h; simpa using h
  | cons x xs ih =>
    intro acc h
    rw [List.foldl_cons]
    by_cases hx : (jsSplit x.period ' ').length = 3
    · simp only [hx, reduceIte]
      exact ih _ (nodup_keys_mapSetAdd acc _ _ _ h)
    · simp only [hx, reduceIte]
      exact ih acc h

theorem fold_keys_wf (t : List Sample) :
    ∀ acc : List (String × ℤ × ℤ),
      (∀ k ∈ acc.map (fun e => e.1), (jsSplit k ' ').length = 3 ∧
        (jsSplit k ' ').getD 0 "" ++ " 1, " ++ (jsSplit k ' ').getD 2 "" = k) →
      ∀ k ∈ ((t.foldl (fun acc item =>
        let parts := jsSplit item.period ' '
        if parts.length = 3 then
          mapSetAdd acc (parts.getD 0 "" ++ " 1, " ++ parts.getD 2 "")
            item.conversations (item.reach.getD 0)
        else acc) acc)).map (fun e => e.1),
        (jsSplit k ' ').length = 3 ∧
          (jsSplit k ' ').getD 0 "" ++ " 1, " ++ (jsSplit k ' ').getD 2 "" = k := by
  induction t with
  | nil => intro acc h; simpa using h
  | cons x xs ih =>
    intro acc h
    rw [List.foldl_cons]
    by_cases hx : (jsSplit x.period ' ').length = 3
    · simp only [hx, reduceIte]
      apply ih
      intro k hk
      rw [mem_keys_mapSetAdd] at hk
      rcases hk with hm | rfl
      · exact h k hm
      · have hp0 : (jsSplit x.period ' ').getD 0 "" ∈ jsSplit x.period ' ' :=
          getD_mem_of_lt (by omega)
        have hp2 : (jsSplit x.period ' ').getD 2 "" ∈ jsSplit x.period ' ' :=
          getD_mem_of_lt (by omega)
        have ha := jsSplit_tokens_sepFree x.period ' ' _ hp0
        have hb := jsSplit_tokens_sepFree x.period ' ' _ hp2
        have hres := key_resplit _ _ ha hb
        rw [hres]
        exact ⟨rfl, rfl⟩
    · simp only [hx, reduceIte]
      exact ih acc h

theorem fold_msamples (l : List MSample) :
    ∀ acc : List (String × ℤ × ℤ),
      (∀ e ∈ l, (jsSplit e.period ' ').length = 3 ∧
        (jsSplit e.period ' ').getD 0 "" ++ " 1, " ++ (jsSplit e.period ' ').getD 2 "" = e.period) →
      (acc.map (fun x => x.1) ++ l.map (fun e => e.period)).Nodup →
      ((msamplesToSamples l).foldl (fun acc item =>
        let parts := jsSplit item.period ' '
        if parts.length = 3 then
          mapSetAdd acc (parts.getD 0 "" ++ " 1, " ++ parts.getD 2 "")
            item.conversations (item.reach.getD 0)
        else acc) acc)
        = acc ++ l.map (fun e => (e.period, e.conversations, e.reach)) := by
  induction l with
  | nil => intro acc _ _; simp [msamplesToSamples]
  | cons e es ih =>
    intro acc hP hnd
    have hPe := hP e (List.mem_cons_self e es)
    have hfresh : e.period ∉ acc.map (fun x => x.1) := by
      intro hc
      rw [List.nodup_append] at hnd
      exact hnd.2.2 hc (by simp)
    simp only [msamplesToSamples, List.map_cons, List.foldl_cons]
    rw [← msamplesToSamples]
    simp only [hPe.1, reduceIte, Option.getD_some, hPe.2]
    rw [mapSetAdd_fresh acc e.period e.conversations e.reach hfresh]
    rw [ih (acc ++ [(e.period, e.conversations, e.reach)])
      (fun x hx => hP x (List.mem_cons_of_mem e hx)) ?_]
    · simp
    · simp only [List.map_append, List.map_cons, List.map_nil]
      have hperm : ((acc.map (fun x => x.1) ++ [e.period]) ++ es.map (fun x => x.period)).Perm
          (acc.map (fun x => x.1) ++ e.period :: es.map (fun x => x.period)) := by
        rw [List.append_assoc]
        exact List.Perm.refl _
      rw [List.append_assoc]
      have : (acc.map (fun x => x.1) ++ ([e.period] ++ es.map (fun x => x.period))).Perm
          (acc.map (fun x => x.1) ++ e.period :: es.map (fun x => x.period)) := List.Perm.refl _
      exact this.nodup_iff.mpr hnd

/-- C9: monthly aggregation is idempotent: re-aggregating the output of
the monthly aggregator reproduces it exactly, for every input
trendline.  The bucket keys regenerate themselves (month token, the
literal 1, year token), the Map pass is the identity on a run with
distinct keys, and the stable sort is idempotent because the comparator
is antisymmetric and transitive on strict comparisons. -/
theorem aggregateToMonthly_idempotent (t : List Sample) :
    aggregateToMonthly (msamplesToSamples (aggregateToMonthly t)) = aggregateToMonthly t := by
  have hwf := fold_keys_wf t [] (by simp)
  have hnodup := fold_keys_nodup t [] (by simp)
  set F := t.foldl (fun acc item =>
    let parts := jsSplit item.period ' '
    if parts.length = 3 then
      mapSetAdd acc (parts.getD 0 "" ++ " 1, " ++ parts.getD 2 "")
        item.conversations (item.reach.getD 0)
    else acc) [] with hF
  have hA : aggregateToMonthly t
      = jsSortBy cmpMonthly (F.map (fun e => (⟨e.1, e.2.1, e.2.2⟩ : MSample))) := by
    rw [aggregateToMonthly]
  have hAperm : (aggregateToMonthly t).Perm (F.map (fun e => (⟨e.1, e.2.1, e.2.2⟩ : MSample))) := by
    rw [hA]
    exact jsSortBy_perm _ _
  have hperiods : (aggregateToMonthly t).map (fun e => e.period)
      |>.Perm (F.map (fun e => e.1)) := by
    have h1 := hAperm.map (fun e => e.period)
    have h2 : (F.map (fun e => (⟨e.1, e.2.1, e.2.2⟩ : MSample))).map (fun e => e.period)
        = F.map (fun e => e.1) := by
      rw [List.map_map]
      rfl
    rw [h2] at h1
    exact h1
  have hPA : ∀ e ∈ aggregateToMonthly t, (jsSplit e.period ' ').length = 3 ∧
      (jsSplit e.period ' ').getD 0 "" ++ " 1, " ++ (jsSplit e.period ' ').getD 2 ""
        = e.period := by
    intro e he
    apply hwf
    have : e.period ∈ (aggregateToMonthly t).map (fun e => e.period) :=
      List.mem_map.mpr ⟨e, he, rfl⟩
    exact hperiods.mem_iff.mp this
  have hndA : ((aggregateToMonthly t).map (fun e => e.period)).Nodup :=
    hperiods.nodup_iff.mpr hnodup
  have hfold2 := fold_msamples (aggregateToMonthly t) [] hPA (by simpa using hndA)
  have hmain : aggregateToMonthly (msamplesToSamples (aggregateToMonthly t))
      = jsSortBy cmpMonthly (aggregateToMonthly t) := by
    rw [aggregateToMonthly]
    rw [hfold2]
    simp only [List.nil_append, List.map_map]
    have : ((aggregateToMonthly t).map
        ((fun e => (⟨e.1, e.2.1, e.2.2⟩ : MSample)) ∘ fun e => (e.period, e.conversations, e.reach)))
        = aggregateToMonthly t := by
      have hid : ((fun e => (⟨e.1, e.2.1, e.2.2⟩ : MSample))
          ∘ fun e : MSample => (e.period, e.conversations, e.reach)) = id := by
        funext e
        rfl
      rw [hid, List.map_id]
    rw [this]
  rw [hmain, hA]
  exact jsSortBy_idempotent cmpMonthly_antisym cmpMonthly_strictTrans _

end DCT

namespace DCT

/-! ## Claim C8: period label round trip -/

theorem natCharsAux_spec : ∀ fuel n : ℕ, n < fuel →
    natCharsAux fuel n ≠ [] ∧ (∀ c ∈ natCharsAux fuel n, c.isDigit = true) ∧
      digitsToNat (natCharsAux fuel n) = n := by
  intro fuel
  induction fuel with
  | zero => intro n h; omega
  | succ fuel ih =>
    intro n h
    rw [natCharsAux]
    by_cases h10 : n < 10
    · rw [if_pos h10]
      refine ⟨by simp, ?_, ?_⟩
      · intro c hc
        simp only [List.mem_singleton] at hc
        subst hc
        interval_cases n <;> decide
      · interval_cases n <;> decide
    · rw [if_neg h10]
      have hdiv : n / 10 < fuel := by
        have := Nat.div_lt_self (by omega : 0 < n) (by omega : 1 < 10)
        omega
      obtain ⟨hne, hdig, hval⟩ := ih (n / 10) hdiv
      refine ⟨by simp, ?_, ?_⟩
      · intro c hc
        rcases List.mem_append.mp hc with hm | hm
        · exact hdig c hm
        · simp only [List.mem_singleton] at hm
          subst hm
          have hlt : n % 10 < 10 := Nat.mod_lt n (by omega)
          interval_cases hk : n % 10 <;> decide
      · rw [digitsToNat, List.foldl_append, ← digitsToNat, hval]
        have hlt : n % 10 < 10 := Nat.mod_lt n (by omega)
        have hdv : digitVal (Char.ofNat (48 + n % 10)) = n % 10 := by
          interval_cases hk : n % 10 <;> decide
        simp only [List.foldl_cons, List.foldl_nil, hdv]
        omega

theorem natChars_spec (n : ℕ) :
    natChars n ≠ [] ∧ (∀ c ∈ natChars n, c.isDigit = true) ∧ digitsToNat (natChars n) = n :=
  natCharsAux_spec (n + 1) n (by omega)

theorem pad2_digits (yy : ℕ) :
    (pad2 yy).data ≠ [] ∧ (∀ c ∈ (pad2 yy).data, c.isDigit = true) ∧
      digitsToNat ((pad2 yy).data) = yy := by
  obtain ⟨hne, hdig, hval⟩ := natChars_spec yy
  rw [pad2]
  by_cases h : yy < 10
  · rw [if_pos h]
    have hdata : ("0" ++ natStr yy).data = '0' :: natChars yy := by
      rw [String.data_append]
      rfl
    rw [hdata]
    refine ⟨by simp, ?_, ?_⟩
    · intro c hc
      rcases List.mem_cons.mp hc with rfl | hm
      · decide
      · exact hdig c hm
    · rw [digitsToNat] at hval ⊢
      simpa using hval
  · rw [if_neg h]
    exact ⟨by simpa [natStr, data_asString] using hne,
      by simpa [natStr, data_asString] using hdig,
      by simpa [natStr, data_asString] using hval⟩

theorem takeWhile_all {p : Char → Bool} : ∀ l : List Char, (∀ c ∈ l, p c = true) →
    l.takeWhile p = l := by
  intro l
  induction l with
  | nil => intro _; rfl
  | cons c cs ih =>
    intro h
    rw [List.takeWhile_cons, h c (List.mem_cons_self c cs),
      ih (fun x hx => h x (List.mem_cons_of_mem c hx))]
    rfl

theorem jsParseInt_digits (l : List Char) (hne : l ≠ [])
    (hdig : ∀ c ∈ l, c.isDigit = true) :
    jsParseInt l.asString = some (digitsToNat l : ℤ) := by
  obtain ⟨c, cs, rfl⟩ : ∃ c cs, l = c :: cs := by
    cases l with
    | nil => exact absurd rfl hne
    | cons c cs => exact ⟨c, cs, rfl⟩
  have hc := hdig c (List.mem_cons_self c cs)
  have hcsp : ¬ c = ' ' := by
    intro hc2
    subst hc2
    exact absurd hc (by decide)
  have hdrop : (c :: cs).dropWhile (fun x => x = ' ') = c :: cs := by
    rw [List.dropWhile_cons]
    simp [hcsp]
  rw [jsParseInt, data_asString, hdrop]
  have hcm : ¬ c = '-' := by
    intro hc2
    subst hc2
    exact absurd hc (by decide)
  have hcp : ¬ c = '+' := by
    intro hc2
    subst hc2
    exact absurd hc (by decide)
  have hmatch : (match c :: cs with
      | '-' :: rest => ((true : Bool), rest)
      | '+' :: rest => ((false : Bool), rest)
      | rest => ((false : Bool), rest)) = ((false : Bool), c :: cs) := by
    split
    · next heq => rw [List.cons.injEq] at heq; exact absurd heq.1 hcm
    · next heq => rw [List.cons.injEq] at heq; exact absurd heq.1 hcp
    · rfl
  rw [hmatch]
  simp only []
  rw [takeWhile_all (c :: cs) hdig]
  rw [if_neg (by simp)]
  rfl

theorem asString_append (l1 l2 : List Char) :
    (l1 ++ l2).asString = l1.asString ++ l2.asString := by
  have h : (l1.asString ++ l2.asString).data = l1 ++ l2 := by
    rw [String.data_append, data_asString, data_asString]
  rw [← h, asString_data]

theorem removeFirst_comma (a : List Char) (h : ',' ∉ a) :
    removeFirstChar ',' (a ++ [',']) = a := by
  induction a with
  | nil => rfl
  | cons c cs ih =>
    have hc : ¬ c = ',' := fun hc => h (hc ▸ List.mem_cons_self c cs)
    rw [List.cons_append, removeFirstChar, if_neg hc,
      ih (fun hm => h (List.mem_cons_of_mem c hm))]

theorem monthName_sepFree (mi : ℕ) (hmi : mi < 12) :
    ' ' ∉ (monthNames.getD mi "").data := by
  have h : ∀ v : Fin 12, ' ' ∉ (monthNames.getD v.val "").data := by decide
  exact h ⟨mi, hmi⟩

theorem monthName_indexOf (mi : ℕ) (hmi : mi < 12) :
    jsIndexOf monthNames (monthNames.getD mi "") = (mi : ℤ) := by
  have h : ∀ v : Fin 12, jsIndexOf monthNames (monthNames.getD v.val "") = (v.val : ℤ) := by
    decide
  exact h ⟨mi, hmi⟩

theorem monthNameAt_eq_getD (mi : ℕ) (hmi : mi < 12) :
    monthNameAt mi = monthNames.getD mi "" := by
  have h : ∀ v : Fin 12, monthNameAt v.val = monthNames.getD v.val "" := by decide
  exact h ⟨mi, hmi⟩

theorem digits_sepFree {l : List Char} (hdig : ∀ c ∈ l, c.isDigit = true) : ' ' ∉ l :=
  fun hm => absurd (hdig ' ' hm) (by decide)

theorem digits_commaFree {l : List Char} (hdig : ∀ c ∈ l, c.isDigit = true) : ',' ∉ l :=
  fun hm => absurd (hdig ',' hm) (by decide)

theorem mkDailyLabel_split (mi d yy : ℕ) (hmi : mi < 12) :
    jsSplit (mkDailyLabel mi d yy) ' '
      = [monthNames.getD mi "", natStr d ++ ",", pad2 yy] := by
  obtain ⟨-, hdig, -⟩ := natChars_spec d
  obtain ⟨-, hpdig, -⟩ := pad2_digits yy
  have hdata : (mkDailyLabel mi d yy).data
      = (monthNames.getD mi "").data ++ ' ' :: ((natChars d ++ [',']) ++ ' ' :: (pad2 yy).data) := by
    simp only [mkDailyLabel, String.data_append, natStr, data_asString]
    simp
  rw [jsSplit, hdata]
  rw [splitChars_append _ _ (monthName_sepFree mi hmi)]
  have hsf2 : ' ' ∉ natChars d ++ [','] := by
    intro hm
    rcases List.mem_append.mp hm with hm | hm
    · exact digits_sepFree hdig hm
    · simp at hm
  rw [splitChars_append _ _ hsf2]
  rw [splitChars_sepFree _ (digits_sepFree hpdig)]
  simp only [List.map_cons, List.map_nil, asString_data]
  rw [asString_append, asString_data]
  rfl

theorem mkMonthlyLabel_split (mi yy : ℕ) (hmi : mi < 12) :
    jsSplit (mkMonthlyLabel mi yy) ' ' = [monthNames.getD mi "", pad2 yy] := by
  obtain ⟨-, hpdig, -⟩ := pad2_digits yy
  have hdata : (mkMonthlyLabel mi yy).data
      = (monthNames.getD mi "").data ++ ' ' :: (pad2 yy).data := by
    simp only [mkMonthlyLabel, String.data_append]
    simp
  rw [jsSplit, hdata]
  rw [splitChars_append _ _ (monthName_sepFree mi hmi)]
  rw [splitChars_sepFree _ (digits_sepFree hpdig)]
  simp only [List.map_cons, List.map_nil, asString_data]

theorem jsParseInt_natStr (n : ℕ) : jsParseInt (natStr n) = some (n : ℤ) := by
  obtain ⟨hne, hdig, hval⟩ := natChars_spec n
  have h := jsParseInt_digits (natChars n) hne hdig
  rw [hval] at h
  exact h

theorem jsParseInt_pad2 (yy : ℕ) : jsParseInt (pad2 yy) = some (yy : ℤ) := by
  obtain ⟨hne, hdig, hval⟩ := pad2_digits yy
  have h := jsParseInt_digits ((pad2 yy).data) hne hdig
  rw [hval, asString_data] at h
  exact h

theorem jsRemoveFirst_natStr_comma (d : ℕ) :
    jsRemoveFirst ',' (natStr d ++ ",") = natStr d := by
  obtain ⟨-, hdig, -⟩ := natChars_spec d
  have hdata : (natStr d ++ ",").data = natChars d ++ [','] := by
    rw [String.data_append]
    rfl
  rw [jsRemoveFirst, hdata, removeFirst_comma _ (digits_commaFree hdig)]
  rfl

theorem normDays_stop (fuel : ℕ) (y : ℤ) (m : ℕ) (d : ℤ)
    (h1 : 1 ≤ d) (h2 : d ≤ monthLen y m) : normDays (fuel + 1) y m d = ⟨y, m, d⟩ := by
  rw [normDays, if_neg (by omega), if_neg (by omega)]

theorem jsMkDate_valid (y : ℤ) (mi : ℕ) (d : ℤ) (hmi : mi < 12)
    (h1 : 1 ≤ d) (h2 : d ≤ monthLen y mi) : jsMkDate y (mi : ℤ) d = ⟨y, mi, d⟩ := by
  have hfd : ((mi : ℤ)).fdiv 12 = 0 ∧ (((mi : ℤ)).emod 12).toNat = mi := by
    interval_cases mi <;> exact ⟨by decide, by decide⟩
  rw [jsMkDate]
  simp only [hfd.1, hfd.2, add_zero]
  have hfuel : d.natAbs + 48 = (d.natAbs + 47) + 1 := rfl
  rw [hfuel, normDays_stop _ _ _ _ h1 h2]

theorem last2_year (yy : ℕ) (hyy : yy < 100) :
    last2 (intStr (fullYearOf yy)) = pad2 yy := by
  have h : ∀ v : Fin 100, last2 (intStr (fullYearOf v.val)) = pad2 v.val := by decide
  exact h ⟨yy, hyy⟩

theorem one_le_monthLen (y : ℤ) (m : ℕ) : 1 ≤ monthLen y m := by
  rw [monthLen]
  rcases m with _|_|_|_|_|_|_|_|_|_|_|_|m
  case succ.succ.succ.succ.succ.succ.succ.succ.succ.succ.succ.succ =>
    simp [List.getD]
  all_goals simp [List.getD]
  split_ifs <;> omega

theorem ite_year_cast (yy : ℕ) :
    (if (yy : ℤ) < 50 then 2000 + (yy : ℤ) else 1900 + (yy : ℤ)) = fullYearOf yy := by
  rw [fullYearOf]
  by_cases h : yy < 50
  · rw [if_pos h, if_pos (by exact_mod_cast h)]
  · rw [if_neg h, if_neg (by omega)]

theorem intStr_natCast (d : ℕ) : intStr (d : ℤ) = natStr d := by
  simp [intStr]

/-- C8: round trip of well-formed period labels.  A daily label built
from a month index, a day valid for the denoted month and a two-digit
year parses to exactly that calendar date, with years below 50 mapping
to 2000 plus the year and years from 50 to 1900 plus the year, and
formatting the parsed date with the source template reproduces the
label; a monthly label parses to the first of its month and the
spec-modelled monthly formatter reproduces it. -/
theorem periodLabel_roundTrip (mi d yy : ℕ) (hmi : mi < 12) (hyy : yy < 100)
    (hd1 : 1 ≤ d) (hd2 : (d : ℤ) ≤ monthLen (fullYearOf yy) mi) :
    parsePeriodToDate (mkDailyLabel mi d yy) = some ⟨fullYearOf yy, mi, (d : ℤ)⟩ ∧
      fmtDaily ⟨fullYearOf yy, mi, (d : ℤ)⟩ = mkDailyLabel mi d yy ∧
      parsePeriodToDate (mkMonthlyLabel mi yy) = some ⟨fullYearOf yy, mi, 1⟩ ∧
      fmtMonthly ⟨fullYearOf yy, mi, 1⟩ = mkMonthlyLabel mi yy := by
  refine ⟨?_, ?_, ?_, ?_⟩
  · rw [parsePeriodToDate]
    simp only [mkDailyLabel_split mi d yy hmi, List.length_cons, List.length_nil,
      List.getD_cons_zero, List.getD_cons_succ, List.get?]
    simp only [show (2 : ℕ) + 1 = 3 from rfl, reduceIte]
    rw [jsRemoveFirst_natStr_comma, jsParseInt_natStr, jsParseInt_pad2,
      monthName_indexOf mi hmi]
    simp only [Option.map_some]
    rw [ite_year_cast]
    rw [jsMkDate_valid (fullYearOf yy) mi (d : ℤ) hmi (by exact_mod_cast hd1) hd2]
  · rw [fmtDaily]
    simp only []
    rw [monthNameAt_eq_getD mi hmi, intStr_natCast, last2_year yy hyy]
    rfl
  · rw [parsePeriodToDate]
    simp only [mkMonthlyLabel_split mi yy hmi, List.length_cons, List.length_nil,
      List.getD_cons_zero, List.get?]
    simp only [show (1 : ℕ) + 1 = 2 from rfl]
    rw [if_neg (by omega)]
    simp only [jsParseIntOpt]
    rw [jsParseInt_pad2, monthName_indexOf mi hmi]
    simp only [Option.map_some]
    rw [ite_year_cast]
    rw [jsMkDate_valid (fullYearOf yy) mi 1 hmi (by omega) (one_le_monthLen _ _)]
  · rw [fmtMonthly]
    simp only []
    rw [monthNameAt_eq_getD mi hmi, last2_year yy hyy]
    rfl

/-- Witness: the label Dec 26, 22 parses to December 26 2022 and
formats back to itself, and the monthly label Dec 22 parses to
December 1 2022 and formats back to itself. -/
theorem periodLabel_roundTrip_witness :
    mkDailyLabel 11 26 22 = "Dec 26, 22" ∧
      parsePeriodToDate (mkDailyLabel 11 26 22) = some ⟨fullYearOf 22, 11, 26⟩ ∧
      fmtDaily ⟨fullYearOf 22, 11, 26⟩ = mkDailyLabel 11 26 22 ∧
      mkMonthlyLabel 11 22 = "Dec 22" ∧
      parsePeriodToDate (mkMonthlyLabel 11 22) = some ⟨fullYearOf 22, 11, 1⟩ ∧
      fmtMonthly ⟨fullYearOf 22, 11, 1⟩ = mkMonthlyLabel 11 22 := by
  have h := periodLabel_roundTrip 11 26 22 (by omega) (by omega) (by omega) (by decide)
  exact ⟨by decide, h.1, h.2.1, by decide, h.2.2.1, h.2.2.2⟩

end DCT
